import Mathlib

/-!
Verification development for the `analyzebasic` paper-metrics engine
(`analyzebasic/utils/utils_analyzer.py`).

The Python code computes stylometric metrics from raw text using the `re`
module.  We shallowly embed the relevant functions over `List Char` / `String`.
Python regular expressions are embedded as sequences of deterministic tokens
(`Tok`): every quantified character class appearing in the embedded patterns is
followed by a token whose first character is outside the class, so the greedy
backtracking search of `re` coincides with maximal-munch matching, which is
what `matchTok` implements.  `re.findall` is embedded by `findallBy`: scan left
to right, emit each match and continue after it (advancing one character after
a failed attempt or an empty match), exactly as CPython does.

Python `str` operations (`lower`, `strip`, `split`) and the `\w`/`\s`/`\b`
regex classes are modelled on their ASCII fragment, which covers all inputs
appearing in the specification.  Python floats are modelled as exact rationals;
`statistics.stdev` values are kept symbolic as `MVal.sqrtv v` (the square root
of the sample variance `v`), all other metric values are rational numbers.
-/

namespace AnalyzeBasic

/-- ASCII fragment of Python's whitespace class `\s` (also used by
`str.strip()` / `str.split()`). -/
def isPySpace (c : Char) : Bool :=
  c == ' ' || c == '\t' || c == '\n' || c == '\r' || c == '\x0b' || c == '\x0c'

/-- ASCII fragment of the regex word class `\w`: letters, digits, underscore. -/
def isWordChar (c : Char) : Bool :=
  c.isAlpha || c.isDigit || c == '_'

/-- `[A-Z]`. -/
def isUpperC (c : Char) : Bool := 'A' ≤ c && c ≤ 'Z'

/-- `[a-z]`. -/
def isLowerC (c : Char) : Bool := 'a' ≤ c && c ≤ 'z'

/-- `[A-Za-z]`. -/
def isAlphaC (c : Char) : Bool := isUpperC c || isLowerC c

/-- `\d`. -/
def isDigitC (c : Char) : Bool := c.isDigit

/-- Python `str.lower()` (ASCII fragment). -/
def lowerL (cs : List Char) : List Char := cs.map Char.toLower

/-- Python `str.strip()`: drop whitespace from both ends. -/
def pyStrip (cs : List Char) : List Char :=
  ((cs.dropWhile isPySpace).reverse.dropWhile isPySpace).reverse

theorem length_dropWhile_le (p : α → Bool) (l : List α) :
    (l.dropWhile p).length ≤ l.length := by
  induction l with
  | nil => simp [List.dropWhile]
  | cons c t ih =>
    by_cases h : p c
    · simp only [List.dropWhile, h]
      exact Nat.le_succ_of_le ih
    · simp [List.dropWhile, h]

/-- Maximal runs of characters satisfying `p` (used for `re.findall(r'\b\w+\b', s)`,
whose matches are exactly the maximal runs of word characters, and for Python
`str.split()`, whose pieces are the maximal runs of non-whitespace characters).
The fuel argument (always at least the input length) only exhibits
termination. -/
def runsOfF (p : Char → Bool) : ℕ → List Char → List (List Char)
  | 0, _ => []
  | _ + 1, [] => []
  | fuel + 1, c :: rest =>
    if p c then
      (c :: rest.takeWhile p) :: runsOfF p fuel (rest.dropWhile p)
    else
      runsOfF p fuel rest

def runsOf (p : Char → Bool) (cs : List Char) : List (List Char) :=
  runsOfF p cs.length cs

/-- `re.findall(r'\b\w+\b', ·)`: the word tokens of a text. -/
def wordsOf (cs : List Char) : List (List Char) := runsOf isWordChar cs

/-- Python `len(s.split())`: number of whitespace-separated tokens. -/
def countWords (cs : List Char) : ℕ := (runsOf (fun c => !isPySpace c) cs).length

/-- `re.split(r'[.!?]+', text)` (and generally `re.split` on a `p`-run pattern):
the pieces of `cs` between maximal nonempty runs of `p`-characters, empty
pieces at the ends and between runs included. -/
def splitRunsF (p : Char → Bool) : ℕ → List Char → List (List Char)
  | 0, cs => [cs.takeWhile (fun c => !p c)]
  | fuel + 1, cs =>
    match cs.dropWhile (fun c => !p c) with
    | [] => [cs.takeWhile (fun c => !p c)]
    | _ :: tl => cs.takeWhile (fun c => !p c) :: splitRunsF p fuel (tl.dropWhile p)

def splitRuns (p : Char → Bool) (cs : List Char) : List (List Char) :=
  splitRunsF p cs.length cs

/-!  ### Deterministic regex tokens

Each embedded `re` pattern is written as a `List Tok`.  `lit s` is a literal
string, `one p` a single character of class `p`, `plus p` / `star p` a maximal
(nonempty / possibly empty) run of class `p` (`p+` / `p*`), `opt p` an optional
single character (`p?`), and `exactly n p` exactly `n` characters of class `p`
(`p{n}`).  Greedy maximal-munch matching agrees with Python's backtracking
search for the patterns embedded below, because in each of them a quantified
class is always followed by a token that cannot start with a character of that
class, so shorter runs can never rescue a failed parse. -/

inductive Tok where
  | lit (s : List Char)
  | one (p : Char → Bool)
  | plus (p : Char → Bool)
  | star (p : Char → Bool)
  | opt (p : Char → Bool)
  | exactly (n : ℕ) (p : Char → Bool)

/-- Match a single token at the start of `cs`; returns (consumed, rest). -/
def matchTok (t : Tok) (cs : List Char) : Option (List Char × List Char) :=
  match t with
  | .lit s => if s.isPrefixOf cs then some (s, cs.drop s.length) else none
  | .one p =>
    match cs with
    | [] => none
    | c :: rest => if p c then some ([c], rest) else none
  | .plus p =>
    match cs.takeWhile p with
    | [] => none
    | r :: run => some (r :: run, cs.dropWhile p)
  | .star p => some (cs.takeWhile p, cs.dropWhile p)
  | .opt p =>
    match cs with
    | [] => some ([], [])
    | c :: rest => if p c then some ([c], rest) else some ([], c :: rest)
  | .exactly n p =>
    if (cs.take n).length = n ∧ (cs.take n).all p then some (cs.take n, cs.drop n)
    else none

/-- Match a token sequence at the start of `cs`. -/
def matchToks : List Tok → List Char → Option (List Char × List Char)
  | [], cs => some ([], cs)
  | t :: ts, cs =>
    match matchTok t cs with
    | none => none
    | some (m1, cs1) =>
      match matchToks ts cs1 with
      | none => none
      | some (m2, rest) => some (m1 ++ m2, rest)

/-- First alternative of `alts` that matches at the start of `cs`
(the `|` of a Python regex). -/
def matchAlts : List (List Tok) → List Char → Option (List Char × List Char)
  | [], _ => none
  | a :: rest, cs =>
    match matchToks a cs with
    | some r => some r
    | none => matchAlts rest cs

/-- `re.findall` for a matcher `f`: scan left to right; on a match emit it and
continue right after it; after a failed attempt, or an empty match, advance one
character.  (The side condition `rest.length ≤ tl.length ∧ m ≠ []` holds for
every matcher built from `matchToks` whenever `m ≠ []`, since a match splits
its input; it is only needed to exhibit termination.) -/
def findallByF (f : List Char → Option (List Char × List Char)) :
    ℕ → List Char → List (List Char)
  | 0, _ => []
  | _ + 1, [] =>
    match f [] with
    | some (m, _) => [m]
    | none => []
  | fuel + 1, c :: tl =>
    match f (c :: tl) with
    | some (m, rest) =>
      if rest.length ≤ tl.length ∧ m ≠ [] then m :: findallByF f fuel rest
      else m :: findallByF f fuel tl
    | none => findallByF f fuel tl

def findallBy (f : List Char → Option (List Char × List Char))
    (cs : List Char) : List (List Char) :=
  findallByF f (cs.length + 1) cs

theorem findallByF_fuel (f : List Char → Option (List Char × List Char)) :
    ∀ (a b : ℕ) (cs : List Char), cs.length < a → cs.length < b →
      findallByF f a cs = findallByF f b cs := by
  intro a
  induction a with
  | zero => exact fun b cs ha _ => absurd ha (Nat.not_lt_zero _)
  | succ a ih =>
    intro b cs ha hb
    cases b with
    | zero => exact absurd hb (Nat.not_lt_zero _)
    | succ b =>
      cases cs with
      | nil => rfl
      | cons c tl =>
        have ha' : tl.length < a := by
          simp only [List.length_cons] at ha
          omega
        have hb' : tl.length < b := by
          simp only [List.length_cons] at hb
          omega
        simp only [findallByF]
        cases h1 : f (c :: tl) with
        | none => exact ih b tl ha' hb'
        | some p =>
          obtain ⟨m, rest⟩ := p
          show (if rest.length ≤ tl.length ∧ m ≠ [] then
              m :: findallByF f a rest else m :: findallByF f a tl) =
            (if rest.length ≤ tl.length ∧ m ≠ [] then
              m :: findallByF f b rest else m :: findallByF f b tl)
          by_cases hg : rest.length ≤ tl.length ∧ m ≠ []
          · rw [if_pos hg, if_pos hg,
              ih b rest (by have := hg.1; omega) (by have := hg.1; omega)]
          · rw [if_neg hg, if_neg hg, ih b tl ha' hb']

theorem findallBy_nil_eval (f : List Char → Option (List Char × List Char)) :
    findallBy f [] =
      (match f [] with
       | some (m, _) => [m]
       | none => []) := rfl

theorem findallBy_cons_eval (f : List Char → Option (List Char × List Char))
    (c : Char) (tl : List Char) :
    findallBy f (c :: tl) =
      (match f (c :: tl) with
       | some (m, rest) =>
         if rest.length ≤ tl.length ∧ m ≠ [] then m :: findallBy f rest
         else m :: findallBy f tl
       | none => findallBy f tl) := by
  show findallByF f ((c :: tl).length + 1) (c :: tl) = _
  simp only [List.length_cons, findallByF]
  cases h1 : f (c :: tl) with
  | none => rfl
  | some p =>
    obtain ⟨m, rest⟩ := p
    show (if rest.length ≤ tl.length ∧ m ≠ [] then
        m :: findallByF f (tl.length + 1) rest
      else m :: findallByF f (tl.length + 1) tl) =
      (if rest.length ≤ tl.length ∧ m ≠ [] then m :: findallBy f rest
      else m :: findallBy f tl)
    by_cases hg : rest.length ≤ tl.length ∧ m ≠ []
    · rw [if_pos hg, if_pos hg,
        findallByF_fuel f (tl.length + 1) (rest.length + 1) rest
          (by have := hg.1; omega) (by omega)]
      rfl
    · rw [if_neg hg, if_neg hg]
      rfl

theorem matchTok_split {t : Tok} {cs m r : List Char}
    (h : matchTok t cs = some (m, r)) : m ++ r = cs := by
  cases t with
  | lit s =>
    by_cases hp : s.isPrefixOf cs
    · simp only [matchTok, hp, if_true, Option.some.injEq, Prod.mk.injEq] at h
      obtain ⟨rfl, rfl⟩ := h
      obtain ⟨u, rfl⟩ := List.isPrefixOf_iff_prefix.mp hp
      simp
    · simp [matchTok, hp] at h
  | one p =>
    cases cs with
    | nil => simp [matchTok] at h
    | cons c rest =>
      by_cases hp : p c
      · simp only [matchTok, hp, if_true, Option.some.injEq, Prod.mk.injEq] at h
        obtain ⟨rfl, rfl⟩ := h
        rfl
      · simp [matchTok, hp] at h
  | plus p =>
    cases hr : cs.takeWhile p with
    | nil => simp [matchTok, hr] at h
    | cons a run =>
      simp only [matchTok, hr, Option.some.injEq, Prod.mk.injEq] at h
      obtain ⟨rfl, rfl⟩ := h
      rw [← hr]
      exact cs.takeWhile_append_dropWhile p
  | star p =>
    simp only [matchTok, Option.some.injEq, Prod.mk.injEq] at h
    obtain ⟨rfl, rfl⟩ := h
    exact cs.takeWhile_append_dropWhile p
  | opt p =>
    cases cs with
    | nil =>
      simp only [matchTok, Option.some.injEq, Prod.mk.injEq] at h
      obtain ⟨rfl, rfl⟩ := h
      rfl
    | cons c rest =>
      by_cases hp : p c
      · simp only [matchTok, hp, if_true, Option.some.injEq, Prod.mk.injEq] at h
        obtain ⟨rfl, rfl⟩ := h
        rfl
      · simp only [matchTok, hp, if_false, Bool.false_eq_true, Option.some.injEq,
          Prod.mk.injEq] at h
        obtain ⟨rfl, rfl⟩ := h
        rfl
  | exactly n p =>
    simp only [matchTok] at h
    split at h
    · simp only [Option.some.injEq, Prod.mk.injEq] at h
      obtain ⟨rfl, rfl⟩ := h
      exact cs.take_append_drop n
    · simp at h

theorem matchToks_split {ts : List Tok} {cs m r : List Char}
    (h : matchToks ts cs = some (m, r)) : m ++ r = cs := by
  induction ts generalizing cs m r with
  | nil =>
    simp only [matchToks, Option.some.injEq, Prod.mk.injEq] at h
    obtain ⟨rfl, rfl⟩ := h
    rfl
  | cons t ts ih =>
    simp only [matchToks] at h
    cases h1 : matchTok t cs with
    | none => simp only [h1] at h; simp at h
    | some p1 =>
      obtain ⟨m1, cs1⟩ := p1
      simp only [h1] at h
      cases h2 : matchToks ts cs1 with
      | none => simp only [h2] at h; simp at h
      | some p2 =>
        obtain ⟨m2, r2⟩ := p2
        simp only [h2, Option.some.injEq, Prod.mk.injEq] at h
        obtain ⟨rfl, rfl⟩ := h
        rw [List.append_assoc, ih h2, matchTok_split h1]

theorem dropWhile_ne_append_take {p : Char → Bool} {l e : List Char}
    (h : l.dropWhile p ≠ []) : (l ++ e).takeWhile p = l.takeWhile p := by
  rw [List.takeWhile_append]
  split
  · rename_i ht
    exfalso
    apply h
    have hlen : (l.takeWhile p).length + (l.dropWhile p).length = l.length := by
      rw [← List.length_append, l.takeWhile_append_dropWhile p]
    have : (l.dropWhile p).length = 0 := by omega
    exact List.length_eq_zero.mp this
  · rfl

theorem dropWhile_ne_append_drop {p : Char → Bool} {l e : List Char}
    (h : l.dropWhile p ≠ []) : (l ++ e).dropWhile p = l.dropWhile p ++ e := by
  rw [List.dropWhile_append]
  split
  · rename_i ht
    exact absurd (List.isEmpty_iff.mp ht) h
  · rfl

theorem not_isPrefixOf_append {s cs ext : List Char}
    (h1 : ¬ s.isPrefixOf cs) (h2 : (s.isPrefixOf (cs ++ ext)) = true) :
    cs.length < s.length := by
  by_contra hle
  push_neg at hle
  apply h1
  rw [ List.isPrefixOf_iff_prefix] at h2 ⊢
  exact List.prefix_of_prefix_length_le h2 (List.prefix_append cs ext) hle

/-- `TokNoC c t`: token `t` can only ever consume characters different from `c`. -/
def TokNoC (c : Char) : Tok → Prop
  | .lit s => c ∉ s
  | .one p => p c = false
  | .plus p => p c = false
  | .star p => p c = false
  | .opt p => p c = false
  | .exactly _ p => p c = false

theorem matchTok_noC {c : Char} {t : Tok} {cs m r : List Char}
    (hx : TokNoC c t) (h : matchTok t cs = some (m, r)) : c ∉ m := by
  cases t with
  | lit s =>
    simp only [matchTok] at h
    split at h
    · simp only [Option.some.injEq, Prod.mk.injEq] at h
      obtain ⟨rfl, rfl⟩ := h
      exact hx
    · simp at h
  | one p =>
    cases cs with
    | nil => simp [matchTok] at h
    | cons a rest =>
      simp only [matchTok] at h
      split at h
      · rename_i hp
        simp only [Option.some.injEq, Prod.mk.injEq] at h
        obtain ⟨rfl, rfl⟩ := h
        intro hm
        rw [← List.mem_singleton.mp hm, hx] at hp
        simp at hp
      · simp at h
  | plus p =>
    cases hr : cs.takeWhile p with
    | nil => simp [matchTok, hr] at h
    | cons a run =>
      simp only [matchTok, hr, Option.some.injEq, Prod.mk.injEq] at h
      obtain ⟨rfl, rfl⟩ := h
      intro hm
      rw [← hr] at hm
      have := List.mem_takeWhile_imp hm
      rw [hx] at this
      cases this
  | star p =>
    simp only [matchTok, Option.some.injEq, Prod.mk.injEq] at h
    obtain ⟨rfl, rfl⟩ := h
    intro hm
    have := List.mem_takeWhile_imp hm
    rw [hx] at this
    cases this
  | opt p =>
    cases cs with
    | nil =>
      simp only [matchTok, Option.some.injEq, Prod.mk.injEq] at h
      obtain ⟨rfl, rfl⟩ := h
      simp
    | cons a rest =>
      simp only [matchTok] at h
      split at h
      · rename_i hp
        simp only [Option.some.injEq, Prod.mk.injEq] at h
        obtain ⟨rfl, rfl⟩ := h
        intro hm
        rw [← List.mem_singleton.mp hm, hx] at hp
        simp at hp
      · simp only [Option.some.injEq, Prod.mk.injEq] at h
        obtain ⟨rfl, rfl⟩ := h
        simp
  | exactly n p =>
    simp only [matchTok] at h
    split at h
    · rename_i hc
      simp only [Option.some.injEq, Prod.mk.injEq] at h
      obtain ⟨rfl, rfl⟩ := h
      intro hm
      have := (List.all_eq_true.mp hc.2) c hm
      rw [hx] at this
      cases this
    · simp at h

theorem matchToks_noC {c : Char} {ts : List Tok} {cs m r : List Char}
    (hx : ∀ t ∈ ts, TokNoC c t) (h : matchToks ts cs = some (m, r)) : c ∉ m := by
  induction ts generalizing cs m r with
  | nil =>
    simp only [matchToks, Option.some.injEq, Prod.mk.injEq] at h
    obtain ⟨rfl, rfl⟩ := h
    simp
  | cons t ts ih =>
    simp only [matchToks] at h
    cases h1 : matchTok t cs with
    | none => simp only [h1] at h; simp at h
    | some p1 =>
      obtain ⟨m1, cs1⟩ := p1
      simp only [h1] at h
      cases h2 : matchToks ts cs1 with
      | none => simp only [h2] at h; simp at h
      | some p2 =>
        obtain ⟨m2, r2⟩ := p2
        simp only [h2, Option.some.injEq, Prod.mk.injEq] at h
        obtain ⟨rfl, rfl⟩ := h
        intro hm
        rcases List.mem_append.mp hm with hm | hm
        · exact matchTok_noC (hx t (by simp)) h1 hm
        · exact ih (fun u hu => hx u (by simp [hu])) h2 hm

theorem matchToks_append {ts1 ts2 : List Tok} {cs m r : List Char}
    (h : matchToks (ts1 ++ ts2) cs = some (m, r)) :
    ∃ m1 mid m2, matchToks ts1 cs = some (m1, mid) ∧
      matchToks ts2 mid = some (m2, r) ∧ m = m1 ++ m2 := by
  induction ts1 generalizing cs m with
  | nil => exact ⟨[], cs, m, rfl, h, rfl⟩
  | cons t ts ih =>
    simp only [List.cons_append, matchToks, List.append_eq] at h
    cases h1 : matchTok t cs with
    | none => simp only [h1] at h; simp at h
    | some p1 =>
      obtain ⟨ma, csa⟩ := p1
      simp only [h1, List.append_eq] at h
      cases h2 : matchToks (ts ++ ts2) csa with
      | none => simp only [h2] at h; simp at h
      | some p2 =>
        obtain ⟨mb, rb⟩ := p2
        simp only [h2, Option.some.injEq, Prod.mk.injEq] at h
        obtain ⟨rfl, rfl⟩ := h
        obtain ⟨m1, mid, m2, g1, g2, rfl⟩ := ih h2
        refine ⟨ma ++ m1, mid, m2, ?_, g2, by rw [List.append_assoc]⟩
        simp only [matchToks, h1, g1]

theorem matchToks_singleton_lit {c : Char} {mid m2 r : List Char}
    (h : matchToks [Tok.lit [c]] mid = some (m2, r)) : m2 = [c] := by
  simp only [matchToks] at h
  cases h1 : matchTok (Tok.lit [c]) mid with
  | none => simp only [h1] at h; simp at h
  | some p1 =>
    obtain ⟨ma, csa⟩ := p1
    simp only [h1, Option.some.injEq, Prod.mk.injEq] at h
    have hma : ma = [c] := by
      simp only [matchTok] at h1
      split at h1
      · simp only [Option.some.injEq, Prod.mk.injEq] at h1
        exact h1.1.symm
      · simp at h1
    rw [← h.1, hma, List.append_nil]

theorem matchToks_endsLit_ne {c : Char} {ts : List Tok}
    (he : ∃ init, ts = init ++ [Tok.lit [c]]) {cs m r : List Char}
    (h : matchToks ts cs = some (m, r)) : m ≠ [] := by
  obtain ⟨init, rfl⟩ := he
  obtain ⟨m1, mid, m2, _, g2, rfl⟩ := matchToks_append h
  rw [matchToks_singleton_lit g2]
  simp

theorem matchTok_lit_stable {s cs m1 cs1 : List Char} (ext : List Char)
    (h : matchTok (.lit s) cs = some (m1, cs1)) :
    matchTok (.lit s) (cs ++ ext) = some (m1, cs1 ++ ext) := by
  simp only [matchTok] at h
  split at h
  · rename_i hp
    simp only [Option.some.injEq, Prod.mk.injEq] at h
    obtain ⟨rfl, rfl⟩ := h
    have hple : s <+: cs := List.isPrefixOf_iff_prefix.mp hp
    have hle : s.length ≤ cs.length := hple.length_le
    have hp2 : s.isPrefixOf (cs ++ ext) = true :=
      List.isPrefixOf_iff_prefix.mpr (hple.trans (List.prefix_append cs ext))
    simp only [matchTok, hp2, if_true, Option.some.injEq, Prod.mk.injEq,
      List.drop_append_of_le_length hle, and_self]
  · simp at h

theorem matchTok_stable_of_ne {t : Tok} {cs m1 cs1 : List Char} (ext : List Char)
    (h : matchTok t cs = some (m1, cs1)) (hne : cs1 ≠ []) :
    matchTok t (cs ++ ext) = some (m1, cs1 ++ ext) := by
  cases t with
  | lit s => exact matchTok_lit_stable ext h
  | one p =>
    cases cs with
    | nil => simp [matchTok] at h
    | cons a rest =>
      simp only [matchTok] at h
      split at h
      · rename_i hp
        simp only [Option.some.injEq, Prod.mk.injEq] at h
        obtain ⟨rfl, rfl⟩ := h
        simp [matchTok, hp]
      · simp at h
  | plus p =>
    cases hr : cs.takeWhile p with
    | nil => simp [matchTok, hr] at h
    | cons a run =>
      simp only [matchTok, hr, Option.some.injEq, Prod.mk.injEq] at h
      obtain ⟨rfl, rfl⟩ := h
      have ht := dropWhile_ne_append_take (l := cs) (e := ext) (p := p) hne
      have hd := dropWhile_ne_append_drop (l := cs) (e := ext) (p := p) hne
      simp only [matchTok, ht, hr, hd]
  | star p =>
    simp only [matchTok, Option.some.injEq, Prod.mk.injEq] at h
    obtain ⟨rfl, rfl⟩ := h
    have ht := dropWhile_ne_append_take (l := cs) (e := ext) (p := p) hne
    have hd := dropWhile_ne_append_drop (l := cs) (e := ext) (p := p) hne
    simp only [matchTok, ht, hd]
  | opt p =>
    cases cs with
    | nil =>
      simp only [matchTok, Option.some.injEq, Prod.mk.injEq] at h
      obtain ⟨rfl, rfl⟩ := h
      exact absurd rfl hne
    | cons a rest =>
      simp only [matchTok] at h
      split at h
      · rename_i hp
        simp only [Option.some.injEq, Prod.mk.injEq] at h
        obtain ⟨rfl, rfl⟩ := h
        simp [matchTok, hp]
      · rename_i hp
        simp only [Option.some.injEq, Prod.mk.injEq] at h
        obtain ⟨rfl, rfl⟩ := h
        simp [matchTok, hp]
  | exactly n p =>
    simp only [matchTok] at h
    split at h
    · rename_i hc
      simp only [Option.some.injEq, Prod.mk.injEq] at h
      obtain ⟨rfl, rfl⟩ := h
      have hlen : n ≤ cs.length := by
        have := hc.1
        simp only [List.length_take] at this
        omega
      have htake : (cs ++ ext).take n = cs.take n :=
        List.take_append_of_le_length hlen
      have hdrop : (cs ++ ext).drop n = cs.drop n ++ ext :=
        List.drop_append_of_le_length hlen
      simp only [matchTok, htake, hdrop, if_pos hc]
    · simp at h

theorem matchToks_stable {c : Char} {ts : List Tok}
    (he : ∃ init, ts = init ++ [Tok.lit [c]]) :
    ∀ {cs m r : List Char} (ext : List Char), matchToks ts cs = some (m, r) →
      matchToks ts (cs ++ ext) = some (m, r ++ ext) := by
  induction ts with
  | nil =>
    obtain ⟨init, hinit⟩ := he
    exact absurd hinit.symm (by simp)
  | cons t ts ih =>
    intro cs m r ext h
    obtain ⟨init, hinit⟩ := he
    simp only [matchToks] at h
    cases h1 : matchTok t cs with
    | none => simp only [h1] at h; simp at h
    | some p1 =>
      obtain ⟨m1, cs1⟩ := p1
      simp only [h1] at h
      cases h2 : matchToks ts cs1 with
      | none => simp only [h2] at h; simp at h
      | some p2 =>
        obtain ⟨m2, r2⟩ := p2
        simp only [h2, Option.some.injEq, Prod.mk.injEq] at h
        obtain ⟨rfl, rfl⟩ := h
        cases init with
        | nil =>
          -- `t` is the final literal, `ts = []`.
          simp only [List.nil_append, List.cons.injEq] at hinit
          obtain ⟨rfl, rfl⟩ := hinit
          simp only [matchToks, Option.some.injEq, Prod.mk.injEq] at h2
          obtain ⟨rfl, rfl⟩ := h2
          have hst := matchTok_lit_stable ext h1
          simp only [matchToks, hst]
        | cons i init' =>
          simp only [List.cons_append, List.cons.injEq] at hinit
          obtain ⟨rfl, rfl⟩ := hinit
          have hee : ∃ init0, init' ++ [Tok.lit [c]] = init0 ++ [Tok.lit [c]] :=
            ⟨init', rfl⟩
          have hm2 : m2 ≠ [] := matchToks_endsLit_ne hee h2
          have hcs1 : cs1 ≠ [] := by
            intro hnil
            rw [hnil] at h2
            have := matchToks_split h2
            simp only [List.append_eq_nil] at this  -- m2 ++ r2 = []
            exact hm2 this.1
          have hstep := matchTok_stable_of_ne ext h1 hcs1
          have hrec := ih hee ext h2
          simp only [matchToks, hstep, hrec]

theorem matchTok_one_stable {p : Char → Bool} {cs m1 cs1 : List Char} (ext : List Char)
    (h : matchTok (.one p) cs = some (m1, cs1)) :
    matchTok (.one p) (cs ++ ext) = some (m1, cs1 ++ ext) := by
  cases cs with
  | nil => simp [matchTok] at h
  | cons a rest =>
    simp only [matchTok] at h
    split at h
    · rename_i hp
      simp only [Option.some.injEq, Prod.mk.injEq] at h
      obtain ⟨rfl, rfl⟩ := h
      simp [matchTok, hp]
    · simp at h

theorem matchTok_exactly_stable {n : ℕ} {p : Char → Bool} {cs m1 cs1 : List Char}
    (ext : List Char) (h : matchTok (.exactly n p) cs = some (m1, cs1)) :
    matchTok (.exactly n p) (cs ++ ext) = some (m1, cs1 ++ ext) := by
  simp only [matchTok] at h
  split at h
  · rename_i hc
    simp only [Option.some.injEq, Prod.mk.injEq] at h
    obtain ⟨rfl, rfl⟩ := h
    have hlen : n ≤ cs.length := by
      have := hc.1
      simp only [List.length_take] at this
      omega
    simp only [matchTok, List.take_append_of_le_length hlen,
      List.drop_append_of_le_length hlen, if_pos hc]
  · simp at h

theorem matchTok_opt_cons_stable {p : Char → Bool} {a : Char} {cs' m1 cs1 : List Char}
    (ext : List Char) (h : matchTok (.opt p) (a :: cs') = some (m1, cs1)) :
    matchTok (.opt p) ((a :: cs') ++ ext) = some (m1, cs1 ++ ext) := by
  simp only [matchTok] at h
  split at h
  · rename_i hp
    simp only [Option.some.injEq, Prod.mk.injEq] at h
    obtain ⟨rfl, rfl⟩ := h
    simp [matchTok, hp]
  · rename_i hp
    simp only [Option.some.injEq, Prod.mk.injEq] at h
    obtain ⟨rfl, rfl⟩ := h
    simp [matchTok, hp]

theorem matchToks_swallow {c : Char} {ts : List Tok}
    (he : ∃ init, ts = init ++ [Tok.lit [c]]) :
    ∀ {cs m r : List Char} (ext : List Char), matchToks ts cs = none →
      matchToks ts (cs ++ ext) = some (m, r) → cs.length < m.length := by
  induction ts with
  | nil =>
    obtain ⟨init, hinit⟩ := he
    exact absurd hinit.symm (by simp)
  | cons t ts ih =>
    intro cs m r ext hnone hsome
    -- Decompose the successful match on the extended input.
    simp only [matchToks] at hsome
    cases h1e : matchTok t (cs ++ ext) with
    | none => simp only [h1e] at hsome; simp at hsome
    | some p1 =>
      obtain ⟨m1e, cs1e⟩ := p1
      simp only [h1e] at hsome
      cases h2e : matchToks ts cs1e with
      | none => simp only [h2e] at hsome; simp at hsome
      | some p2 =>
        obtain ⟨m2e, re⟩ := p2
        simp only [h2e, Option.some.injEq, Prod.mk.injEq] at hsome
        obtain ⟨rfl, rfl⟩ := hsome
        obtain ⟨init, hinit⟩ := he
        cases init with
        | nil =>
          -- `t` is the final literal and `ts = []`.
          simp only [List.nil_append, List.cons.injEq] at hinit
          obtain ⟨rfl, rfl⟩ := hinit
          simp only [matchToks, Option.some.injEq, Prod.mk.injEq] at h2e
          obtain ⟨rfl, rfl⟩ := h2e
          cases h1 : matchTok (Tok.lit [c]) cs with
          | some p1 =>
            obtain ⟨m1, cs1⟩ := p1
            simp only [matchToks, h1] at hnone
            exact absurd hnone (by simp)
          | none =>
            simp only [matchTok] at h1
            split at h1
            · simp at h1
            · rename_i hp1
              simp only [matchTok] at h1e
              split at h1e
              · rename_i hp2
                simp only [Option.some.injEq, Prod.mk.injEq] at h1e
                obtain ⟨rfl, rfl⟩ := h1e
                have hcl := not_isPrefixOf_append (by simpa using hp1) hp2
                simpa using hcl
              · simp at h1e
        | cons i init' =>
          simp only [List.cons_append, List.cons.injEq] at hinit
          obtain ⟨rfl, rfl⟩ := hinit
          have hee : ∃ init0, init' ++ [Tok.lit [c]] = init0 ++ [Tok.lit [c]] :=
            ⟨init', rfl⟩
          have hm2e : m2e ≠ [] := matchToks_endsLit_ne hee h2e
          cases h1 : matchTok t cs with
          | some p1 =>
            obtain ⟨m1, cs1⟩ := p1
            -- In this branch `matchToks ts cs1` must have failed.
            have h2 : matchToks (init' ++ [Tok.lit [c]]) cs1 = none := by
              cases h2 : matchToks (init' ++ [Tok.lit [c]]) cs1 with
              | none => rfl
              | some p2 =>
                obtain ⟨m2, r2⟩ := p2
                simp only [matchToks, h1, h2] at hnone
                exact absurd hnone (by simp)
            -- Establish that the token step is stable under extension,
            -- or handle the run-to-the-end cases of `plus` / `star`.
            cases t with
            | lit s =>
              have hst := matchTok_lit_stable ext h1
              have hinj := hst.symm.trans h1e
              simp only [Option.some.injEq, Prod.mk.injEq] at hinj
              obtain ⟨rfl, rfl⟩ := hinj
              have hlt := ih hee ext h2 h2e
              have hsp := matchTok_split h1
              have hln : m1.length + cs1.length = cs.length := by
                rw [← hsp]; simp
              simp only [List.length_append]
              omega
            | one p =>
              have hst := matchTok_one_stable ext h1
              have hinj := hst.symm.trans h1e
              simp only [Option.some.injEq, Prod.mk.injEq] at hinj
              obtain ⟨rfl, rfl⟩ := hinj
              have hlt := ih hee ext h2 h2e
              have hsp := matchTok_split h1
              have hln : m1.length + cs1.length = cs.length := by
                rw [← hsp]; simp
              simp only [List.length_append]
              omega
            | exactly n p =>
              have hst := matchTok_exactly_stable ext h1
              have hinj := hst.symm.trans h1e
              simp only [Option.some.injEq, Prod.mk.injEq] at hinj
              obtain ⟨rfl, rfl⟩ := hinj
              have hlt := ih hee ext h2 h2e
              have hsp := matchTok_split h1
              have hln : m1.length + cs1.length = cs.length := by
                rw [← hsp]; simp
              simp only [List.length_append]
              omega
            | opt p =>
              cases cs with
              | nil =>
                have hmne : 0 < m2e.length := List.length_pos.mpr hm2e
                simp only [List.length_append, List.length_nil]
                omega
              | cons a cs' =>
                have hst := matchTok_opt_cons_stable ext h1
                have hinj := hst.symm.trans h1e
                simp only [Option.some.injEq, Prod.mk.injEq] at hinj
                obtain ⟨rfl, rfl⟩ := hinj
                have hlt := ih hee ext h2 h2e
                have hsp := matchTok_split h1
                have hln : m1.length + cs1.length = (a :: cs').length := by
                  rw [← hsp]; simp
                simp only [List.length_append]
                simp only [List.length_cons] at hln ⊢
                omega
            | plus p =>
              by_cases hd : cs.dropWhile p = []
              · -- The run swallowed all of `cs`.
                have hall : ∀ x ∈ cs, p x := List.dropWhile_eq_nil_iff.mp hd
                have htke : (cs ++ ext).takeWhile p = cs ++ ext.takeWhile p :=
                  List.takeWhile_append_of_pos hall
                have hdke : (cs ++ ext).dropWhile p = ext.dropWhile p :=
                  List.dropWhile_append_of_pos hall
                have hm1 : m1e = cs ++ ext.takeWhile p ∧ cs1e = ext.dropWhile p := by
                  simp only [matchTok, htke, hdke] at h1e
                  cases htw : cs ++ ext.takeWhile p with
                  | nil =>
                    rw [htw] at h1e
                    simp at h1e
                  | cons b run =>
                    rw [htw] at h1e
                    simp only [Option.some.injEq, Prod.mk.injEq] at h1e
                    exact ⟨h1e.1.symm, h1e.2.symm⟩
                obtain ⟨rfl, rfl⟩ := hm1
                have hpos : 0 < m2e.length := List.length_pos.mpr hm2e
                simp only [List.length_append]
                omega
              · have hst := matchTok_stable_of_ne ext h1 (by
                  intro hnil
                  apply hd
                  simp only [matchTok] at h1
                  cases htw : cs.takeWhile p with
                  | nil => rw [htw] at h1; simp at h1
                  | cons b run =>
                    rw [htw] at h1
                    simp only [Option.some.injEq, Prod.mk.injEq] at h1
                    rw [h1.2]
                    exact hnil)
                have hinj := hst.symm.trans h1e
                simp only [Option.some.injEq, Prod.mk.injEq] at hinj
                obtain ⟨rfl, rfl⟩ := hinj
                have hlt := ih hee ext h2 h2e
                have hsp := matchTok_split h1
                have hln : m1.length + cs1.length = cs.length := by
                  rw [← hsp]; simp
                simp only [List.length_append]
                omega
            | star p =>
              by_cases hd : cs.dropWhile p = []
              · have hall : ∀ x ∈ cs, p x := List.dropWhile_eq_nil_iff.mp hd
                have htke : (cs ++ ext).takeWhile p = cs ++ ext.takeWhile p :=
                  List.takeWhile_append_of_pos hall
                have hdke : (cs ++ ext).dropWhile p = ext.dropWhile p :=
                  List.dropWhile_append_of_pos hall
                have hm1 : m1e = cs ++ ext.takeWhile p ∧ cs1e = ext.dropWhile p := by
                  simp only [matchTok, htke, hdke, Option.some.injEq,
                    Prod.mk.injEq] at h1e
                  exact ⟨h1e.1.symm, h1e.2.symm⟩
                obtain ⟨rfl, rfl⟩ := hm1
                have hpos : 0 < m2e.length := List.length_pos.mpr hm2e
                simp only [List.length_append]
                omega
              · have hst := matchTok_stable_of_ne ext h1 (by
                  intro hnil
                  apply hd
                  simp only [matchTok, Option.some.injEq, Prod.mk.injEq] at h1
                  rw [h1.2]
                  exact hnil)
                have hinj := hst.symm.trans h1e
                simp only [Option.some.injEq, Prod.mk.injEq] at hinj
                obtain ⟨rfl, rfl⟩ := hinj
                have hlt := ih hee ext h2 h2e
                have hsp := matchTok_split h1
                have hln : m1.length + cs1.length = cs.length := by
                  rw [← hsp]; simp
                simp only [List.length_append]
                omega
          | none =>
            -- The failed token attempt must have run off the end of `cs`.
            cases t with
            | lit s =>
              simp only [matchTok] at h1
              split at h1
              · simp at h1
              · rename_i hp1
                simp only [matchTok] at h1e
                split at h1e
                · rename_i hp2
                  simp only [Option.some.injEq, Prod.mk.injEq] at h1e
                  obtain ⟨rfl, rfl⟩ := h1e
                  have hcl := not_isPrefixOf_append (by simpa using hp1) hp2
                  simp only [List.length_append]
                  omega
                · simp at h1e
            | one p =>
              cases cs with
              | nil =>
                have hpos : 0 < m2e.length := List.length_pos.mpr hm2e
                simp only [List.length_append, List.length_nil]
                omega
              | cons a cs' =>
                simp only [matchTok] at h1
                split at h1
                · simp at h1
                · rename_i hp
                  simp only [List.cons_append, matchTok] at h1e
                  rw [if_neg hp] at h1e
                  simp at h1e
            | plus p =>
              cases cs with
              | nil =>
                have hpos : 0 < m2e.length := List.length_pos.mpr hm2e
                simp only [List.length_append, List.length_nil]
                omega
              | cons a cs' =>
                simp only [matchTok] at h1
                cases htw : (a :: cs').takeWhile p with
                | cons b run => rw [htw] at h1; simp at h1
                | nil =>
                  have hpa : p a = false := by
                    by_cases hpa : p a
                    · rw [List.takeWhile_cons_of_pos hpa] at htw
                      simp at htw
                    · simpa using hpa
                  simp only [List.cons_append, matchTok, List.takeWhile_cons,
                    hpa] at h1e
                  simp at h1e
            | star p => simp [matchTok] at h1
            | opt p =>
              cases cs with
              | nil => simp [matchTok] at h1
              | cons a cs' =>
                simp only [matchTok] at h1
                split at h1 <;> simp at h1
            | exactly n p =>
              by_cases hn : n ≤ cs.length
              · exfalso
                simp only [matchTok, List.take_append_of_le_length hn] at h1e
                simp only [matchTok] at h1
                split at h1e
                · rename_i hc2
                  rw [if_pos hc2] at h1
                  simp at h1
                · simp at h1e
              · push_neg at hn
                simp only [matchTok] at h1e
                split at h1e
                · rename_i hc2
                  simp only [Option.some.injEq, Prod.mk.injEq] at h1e
                  obtain ⟨rfl, rfl⟩ := h1e
                  have hlen : ((cs ++ ext).take n).length = n := hc2.1
                  simp only [List.length_append]
                  omega
                · simp at h1e

/-- A "good pattern": it ends in a one-character literal `c` that none of the
earlier tokens can consume.  All eight citation patterns below are good. -/
def GoodPat (ts : List Tok) (c : Char) : Prop :=
  ∃ init, ts = init ++ [Tok.lit [c]] ∧ ∀ t ∈ init, TokNoC c t

theorem GoodPat.endsLit {ts : List Tok} {c : Char} (hg : GoodPat ts c) :
    ∃ init, ts = init ++ [Tok.lit [c]] := by
  obtain ⟨init, h1, _⟩ := hg
  exact ⟨init, h1⟩

theorem matchToks_shape {ts : List Tok} {c : Char} (hg : GoodPat ts c)
    {cs m r : List Char} (h : matchToks ts cs = some (m, r)) :
    ∃ m0, m = m0 ++ [c] ∧ c ∉ m0 := by
  obtain ⟨init, rfl, hx⟩ := hg
  obtain ⟨m1, mid, m2, g1, g2, rfl⟩ := matchToks_append h
  refine ⟨m1, ?_, matchToks_noC hx g1⟩
  rw [matchToks_singleton_lit g2]

theorem matchToks_nil_none {ts : List Tok} {c : Char} (hg : GoodPat ts c) :
    matchToks ts [] = none := by
  cases h : matchToks ts [] with
  | none => rfl
  | some p =>
    obtain ⟨m, r⟩ := p
    have hm : m ≠ [] := matchToks_endsLit_ne hg.endsLit h
    have := matchToks_split h
    simp only [List.append_eq_nil] at this
    exact absurd this.1 hm

theorem findallBy_eq_nil {f : List Char → Option (List Char × List Char)}
    {cs : List Char} (h : ∀ v, v <:+ cs → f v = none) :
    findallBy f cs = [] := by
  induction cs with
  | nil => simp only [findallBy_nil_eval, h [] (List.suffix_refl [])]
  | cons a tl ih =>
    have h0 := h (a :: tl) (List.suffix_refl _)
    simp only [findallBy_cons_eval, h0]
    exact ih (fun v hv => h v (hv.trans (List.suffix_cons a tl)))

theorem findallBy_extend {ts : List Tok} {c : Char} (hg : GoodPat ts c) :
    ∀ (n : ℕ) (cs ext : List Char), cs.length ≤ n →
      ∃ tail, findallBy (matchToks ts) (cs ++ ext) =
        findallBy (matchToks ts) cs ++ tail := by
  intro n
  induction n with
  | zero =>
    intro cs ext hlen
    have : cs = [] := List.length_eq_zero.mp (Nat.le_zero.mp hlen)
    subst this
    refine ⟨findallBy (matchToks ts) ext, ?_⟩
    simp only [List.nil_append, findallBy_nil_eval, matchToks_nil_none hg]
  | succ n ih =>
    intro cs ext hlen
    cases cs with
    | nil =>
      refine ⟨findallBy (matchToks ts) ext, ?_⟩
      simp only [List.nil_append, findallBy_nil_eval, matchToks_nil_none hg]
    | cons a tl =>
      cases h1 : matchToks ts (a :: tl) with
      | some p =>
        obtain ⟨m, rest⟩ := p
        have hmne : m ≠ [] := matchToks_endsLit_ne hg.endsLit h1
        have hsp := matchToks_split h1
        have hrl : rest.length ≤ tl.length := by
          have : m.length + rest.length = tl.length + 1 := by
            rw [← List.length_append, hsp, List.length_cons]
          have hmp : 0 < m.length := List.length_pos.mpr hmne
          omega
        have hstable := matchToks_stable hg.endsLit ext h1
        obtain ⟨tail, htail⟩ := ih rest ext (by
          simp only [List.length_cons] at hlen
          omega)
        refine ⟨tail, ?_⟩
        have hguard1 : (rest ++ ext).length ≤ (tl ++ ext).length ∧ m ≠ [] := by
          constructor
          · simp only [List.length_append]
            omega
          · exact hmne
        have hguard2 : rest.length ≤ tl.length ∧ m ≠ [] := ⟨hrl, hmne⟩
        have hcons : (a :: tl) ++ ext = a :: (tl ++ ext) := rfl
        rw [hcons] at hstable ⊢
        simp only [findallBy_cons_eval, hstable, h1, if_pos hguard1,
          if_pos hguard2]
        rw [htail]
        simp
      | none =>
        cases h1e : matchToks ts ((a :: tl) ++ ext) with
        | none =>
          have hcons : (a :: tl) ++ ext = a :: (tl ++ ext) := rfl
          obtain ⟨tail, htail⟩ := ih tl ext (by simpa using hlen)
          refine ⟨tail, ?_⟩
          rw [hcons] at h1e ⊢
          simp only [findallBy_cons_eval, h1, h1e]
          exact htail
        | some p =>
          obtain ⟨m', rest'⟩ := p
          -- A match that only became possible with the extension swallows
          -- all of `a :: tl`; hence the unextended scan finds nothing at all.
          have hswal := matchToks_swallow hg.endsLit ext h1 h1e
          have hnil : findallBy (matchToks ts) (a :: tl) = [] := by
            apply findallBy_eq_nil
            intro v hv
            cases h2 : matchToks ts v with
            | none => rfl
            | some q =>
              obtain ⟨mv, rv⟩ := q
              exfalso
              obtain ⟨mv0, rfl, _⟩ := matchToks_shape hg h2
              have hcv : c ∈ v := by
                have : c ∈ mv0 ++ [c] := by simp
                have hpre : (mv0 ++ [c]) <+: v := ⟨rv, matchToks_split h2⟩
                exact hpre.subset this
              have hccs : c ∈ a :: tl := hv.subset hcv
              obtain ⟨m0', rfl, hnc⟩ := matchToks_shape hg h1e
              have hsp' := matchToks_split h1e
              have hlcs : (a :: tl).length ≤ m0'.length := by
                have h5 := hswal
                simp only [List.length_append, List.length_cons,
                  List.length_nil] at h5 ⊢
                omega
              have hpre1 : (a :: tl) <+: (m0' ++ [c]) ++ rest' := by
                rw [hsp']
                exact List.prefix_append _ _
              have hpre2 : m0' <+: (m0' ++ [c]) ++ rest' := by
                rw [List.append_assoc]
                exact List.prefix_append _ _
              have hpcs : (a :: tl) <+: m0' :=
                List.prefix_of_prefix_length_le hpre1 hpre2 hlcs
              exact hnc (hpcs.subset hccs)
          refine ⟨m' :: findallBy (matchToks ts) rest', ?_⟩
          rw [hnil]
          have hcons : (a :: tl) ++ ext = a :: (tl ++ ext) := rfl
          rw [hcons] at h1e ⊢
          have hsp' := matchToks_split h1e
          have hguard : rest'.length ≤ (tl ++ ext).length ∧ m' ≠ [] := by
            constructor
            · have hlen2 : m'.length + rest'.length = (a :: tl).length + ext.length := by
                rw [← List.length_append, hsp']
                simp only [List.length_cons, List.length_append]
                omega
              simp only [List.length_append, List.length_cons] at hlen2 ⊢
              omega
            · exact matchToks_endsLit_ne hg.endsLit h1e
          simp only [findallBy_cons_eval, h1e, if_pos hguard]
          simp

theorem findallBy_mono_mem {ts : List Tok} {c : Char} (hg : GoodPat ts c)
    {cs ext x : List Char} (hx : x ∈ findallBy (matchToks ts) cs) :
    x ∈ findallBy (matchToks ts) (cs ++ ext) := by
  obtain ⟨tail, ht⟩ := findallBy_extend hg cs.length cs ext le_rfl
  rw [ht]
  exact List.mem_append_left _ hx

/-!  ### The eight citation patterns (utils_analyzer.py lines 115-124)

`citation_patterns` in `calculate_metrics`. -/

/-- `\[\d+\]` — `[1]` style. -/
def citPat1 : List Tok := [.lit ['['], .plus isDigitC, .lit [']']]

/-- `[\d,\s-]`. -/
def isBrk (c : Char) : Bool := isDigitC c || c == ',' || isPySpace c || c == '-'

/-- `\[[\d,\s-]+\]` — `[1,2,3]` or `[1-3]` style. -/
def citPat2 : List Tok := [.lit ['['], .plus isBrk, .lit [']']]

/-- `\([A-Za-z]+\s+et\s+al\.\,?\s+\d{4}\)` — `(Author et al., 2024)`. -/
def citPat3 : List Tok :=
  [.lit ['('], .plus isAlphaC, .plus isPySpace, .lit ['e', 't'], .plus isPySpace,
    .lit ['a', 'l', '.'], .opt (· == ','), .plus isPySpace, .exactly 4 isDigitC,
    .lit [')']]

/-- `\([A-Za-z]+\s+and\s+[A-Za-z]+\,?\s+\d{4}\)` — `(Author and Author, 2024)`. -/
def citPat4 : List Tok :=
  [.lit ['('], .plus isAlphaC, .plus isPySpace, .lit ['a', 'n', 'd'],
    .plus isPySpace, .plus isAlphaC, .opt (· == ','), .plus isPySpace,
    .exactly 4 isDigitC, .lit [')']]

/-- `\([A-Za-z]+\,?\s+\d{4}\)` — `(Author, 2024)`. -/
def citPat5 : List Tok :=
  [.lit ['('], .plus isAlphaC, .opt (· == ','), .plus isPySpace,
    .exactly 4 isDigitC, .lit [')']]

/-- `[A-Z][a-z]+\s+et\s+al\.\s+\(\d{4}\)` — `Author et al. (2024)`. -/
def citPat6 : List Tok :=
  [.one isUpperC, .plus isLowerC, .plus isPySpace, .lit ['e', 't'],
    .plus isPySpace, .lit ['a', 'l', '.'], .plus isPySpace, .lit ['('],
    .exactly 4 isDigitC, .lit [')']]

/-- `[A-Z][a-z]+\s+et\s+al\.` — `Author et al.` inline. -/
def citPat7 : List Tok :=
  [.one isUpperC, .plus isLowerC, .plus isPySpace, .lit ['e', 't'],
    .plus isPySpace, .lit ['a', 'l'], .lit ['.']]

/-- `[A-Z][a-z]+\s+and\s+[A-Z][a-z]+\s+\(\d{4}\)` — `Author and Author (2024)`. -/
def citPat8 : List Tok :=
  [.one isUpperC, .plus isLowerC, .plus isPySpace, .lit ['a', 'n', 'd'],
    .plus isPySpace, .one isUpperC, .plus isLowerC, .plus isPySpace, .lit ['('],
    .exactly 4 isDigitC, .lit [')']]

theorem citPat1_good : GoodPat citPat1 ']' := by
  refine ⟨[.lit ['['], .plus isDigitC], rfl, ?_⟩
  intro t ht
  fin_cases ht <;> simp only [TokNoC, isDigitC] <;> decide

theorem citPat2_good : GoodPat citPat2 ']' := by
  refine ⟨[.lit ['['], .plus isBrk], rfl, ?_⟩
  intro t ht
  fin_cases ht <;> simp only [TokNoC, isBrk, isDigitC, isPySpace] <;> decide

theorem citPat3_good : GoodPat citPat3 ')' := by
  refine ⟨[.lit ['('], .plus isAlphaC, .plus isPySpace, .lit ['e', 't'],
    .plus isPySpace, .lit ['a', 'l', '.'], .opt (· == ','), .plus isPySpace,
    .exactly 4 isDigitC], rfl, ?_⟩
  intro t ht
  fin_cases ht <;>
    simp only [TokNoC, isAlphaC, isUpperC, isLowerC, isPySpace, isDigitC] <;>
    decide

theorem citPat4_good : GoodPat citPat4 ')' := by
  refine ⟨[.lit ['('], .plus isAlphaC, .plus isPySpace, .lit ['a', 'n', 'd'],
    .plus isPySpace, .plus isAlphaC, .opt (· == ','), .plus isPySpace,
    .exactly 4 isDigitC], rfl, ?_⟩
  intro t ht
  fin_cases ht <;>
    simp only [TokNoC, isAlphaC, isUpperC, isLowerC, isPySpace, isDigitC] <;>
    decide

theorem citPat5_good : GoodPat citPat5 ')' := by
  refine ⟨[.lit ['('], .plus isAlphaC, .opt (· == ','), .plus isPySpace,
    .exactly 4 isDigitC], rfl, ?_⟩
  intro t ht
  fin_cases ht <;>
    simp only [TokNoC, isAlphaC, isUpperC, isLowerC, isPySpace, isDigitC] <;>
    decide

theorem citPat6_good : GoodPat citPat6 ')' := by
  refine ⟨[.one isUpperC, .plus isLowerC, .plus isPySpace, .lit ['e', 't'],
    .plus isPySpace, .lit ['a', 'l', '.'], .plus isPySpace, .lit ['('],
    .exactly 4 isDigitC], rfl, ?_⟩
  intro t ht
  fin_cases ht <;>
    simp only [TokNoC, isUpperC, isLowerC, isPySpace, isDigitC] <;>
    decide

theorem citPat7_good : GoodPat citPat7 '.' := by
  refine ⟨[.one isUpperC, .plus isLowerC, .plus isPySpace, .lit ['e', 't'],
    .plus isPySpace, .lit ['a', 'l']], rfl, ?_⟩
  intro t ht
  fin_cases ht <;>
    simp only [TokNoC, isUpperC, isLowerC, isPySpace] <;>
    decide

theorem citPat8_good : GoodPat citPat8 ')' := by
  refine ⟨[.one isUpperC, .plus isLowerC, .plus isPySpace, .lit ['a', 'n', 'd'],
    .plus isPySpace, .one isUpperC, .plus isLowerC, .plus isPySpace, .lit ['('],
    .exactly 4 isDigitC], rfl, ?_⟩
  intro t ht
  fin_cases ht <;>
    simp only [TokNoC, isUpperC, isLowerC, isPySpace, isDigitC] <;>
    decide

/-- Lines 126-128: `citations = []; for pattern in citation_patterns:
citations.extend(re.findall(pattern, text))` — all matched strings, in pattern
order. -/
def citationsList (cs : List Char) : List (List Char) :=
  findallBy (matchToks citPat1) cs ++ findallBy (matchToks citPat2) cs ++
  findallBy (matchToks citPat3) cs ++ findallBy (matchToks citPat4) cs ++
  findallBy (matchToks citPat5) cs ++ findallBy (matchToks citPat6) cs ++
  findallBy (matchToks citPat7) cs ++ findallBy (matchToks citPat8) cs

/-- Line 129: `metrics['citation_count'] = len(set(citations))` — the number of
distinct matched citation strings. -/
def citationCount (cs : List Char) : ℕ := (citationsList cs).dedup.length

theorem citationsList_mono {cs ext x : List Char} (hx : x ∈ citationsList cs) :
    x ∈ citationsList (cs ++ ext) := by
  simp only [citationsList, List.mem_append] at hx ⊢
  rcases hx with ((((((h | h) | h) | h) | h) | h) | h) | h
  · exact Or.inl (Or.inl (Or.inl (Or.inl (Or.inl (Or.inl (Or.inl
      (findallBy_mono_mem citPat1_good h)))))))
  · exact Or.inl (Or.inl (Or.inl (Or.inl (Or.inl (Or.inl (Or.inr
      (findallBy_mono_mem citPat2_good h)))))))
  · exact Or.inl (Or.inl (Or.inl (Or.inl (Or.inl (Or.inr
      (findallBy_mono_mem citPat3_good h))))))
  · exact Or.inl (Or.inl (Or.inl (Or.inl (Or.inr
      (findallBy_mono_mem citPat4_good h)))))
  · exact Or.inl (Or.inl (Or.inl (Or.inr (findallBy_mono_mem citPat5_good h))))
  · exact Or.inl (Or.inl (Or.inr (findallBy_mono_mem citPat6_good h)))
  · exact Or.inl (Or.inr (findallBy_mono_mem citPat7_good h))
  · exact Or.inr (findallBy_mono_mem citPat8_good h)

theorem citationCount_mono (cs ext : List Char) :
    citationCount cs ≤ citationCount (cs ++ ext) := by
  unfold citationCount
  rw [← List.card_toFinset, ← List.card_toFinset]
  apply Finset.card_le_card
  intro x hx
  rw [List.mem_toFinset] at hx ⊢
  exact citationsList_mono hx

/-!  ### Metric values

`statistics.stdev` returns the square root of the sample variance; we keep it
symbolic (`sqrtv v` denotes `√v`).  All other metric values are exact
rationals (Python floats are modelled as exact arithmetic). -/

inductive MVal where
  | num (q : ℚ)
  | sqrtv (q : ℚ)
deriving DecidableEq, Repr

/-- `statistics.mean` on a list of integers (exact). -/
def meanNat (l : List ℕ) : ℚ := (l.map (fun x => (x : ℚ))).sum / l.length

/-- The sample variance `Σ (x - x̄)² / (n - 1)`; `statistics.stdev l = √(sampleVar l)`. -/
def sampleVar (l : List ℕ) : ℚ :=
  let mu := meanNat l
  ((l.map (fun x => ((x : ℚ) - mu) ^ 2)).sum) / ((l.length : ℚ) - 1)

/-- Python's substring containment (`sub in s`). -/
def containsSub (pat : List Char) : List Char → Bool
  | [] => pat.isEmpty
  | c :: tl => pat.isPrefixOf (c :: tl) || containsSub pat tl

/-- `self.hedging_words` (constructor, lines 12-13). -/
def hedgingWords : List (List Char) :=
  (["may", "might", "could", "possibly", "perhaps", "appears", "suggests",
    "seems", "likely", "potentially"] : List String).map String.data

/-- `self.transition_phrases` (constructor, lines 14-16). -/
def transitionPhrases : List (List Char) :=
  (["furthermore", "moreover", "however", "therefore", "consequently", "thus",
    "hence", "accordingly", "draws on", "paves the way", "taken together"] :
    List String).map String.data

/-- Lines 106-107: hedging tokens per 100 words (0 on empty word list). -/
def hedgingPer100 (lower : List Char) : ℚ :=
  let ws := wordsOf lower
  if ws.isEmpty then 0
  else ((ws.countP (fun w => hedgingWords.contains w) : ℚ) / ws.length) * 100

/-- Lines 189-190: number of transition phrases occurring in the lowered text
(substring containment, each phrase counted at most once). -/
def transCount (lower : List Char) : ℕ :=
  transitionPhrases.countP (fun ph => containsSub ph lower)

/-- Line 191: `trans_count / max(len(text) / 3000, 1)`. -/
def transitionsPerPage (lower : List Char) (textLen : ℕ) : ℚ :=
  (transCount lower : ℚ) / max ((textLen : ℚ) / 3000) 1

/-- `\d+\.\d+` (line 176). -/
def decPat : List Tok := [.plus isDigitC, .lit ['.'], .plus isDigitC]

/-- `len(d.split('.')[1])` for a matched decimal `digits.digits`. -/
def decPlaces (d : List Char) : ℕ := ((d.dropWhile isDigitC).drop 1).length

/-- Lines 176-181: mean number of digits after the decimal point (0 if no
decimal numbers occur). -/
def avgDecimalPlaces (cs : List Char) : ℚ :=
  let ds := findallBy (matchToks decPat) cs
  if ds.isEmpty then 0 else meanNat (ds.map decPlaces)

/-- `\d+\.?\d*%|\d+×|\d+x|factor of \d+` (line 184). -/
def roundAlts : List (List Tok) :=
  [[.plus isDigitC, .opt (· == '.'), .star isDigitC, .lit ['%']],
   [.plus isDigitC, .lit ['×']],
   [.plus isDigitC, .lit ['x']],
   [.lit ("factor of ".data), .plus isDigitC]]

/-- Line 184: the matched number tokens. -/
def numbersList (cs : List Char) : List (List Char) := findallBy (matchAlts roundAlts) cs

/-- Line 185: a number token is "round" if it contains `0%`, `5%`, `×` or `x`. -/
def isRoundTok (n : List Char) : Bool :=
  containsSub ['0', '%'] n || containsSub ['5', '%'] n ||
    containsSub ['×'] n || containsSub ['x'] n

/-- Line 186: `round_count / max(len(numbers), 1)`. -/
def roundNumberRatio (cs : List Char) : ℚ :=
  let ns := numbersList cs
  (ns.countP isRoundTok : ℚ) / (max ns.length 1 : ℕ)

/-- `\(i+\)|\([a-z]\)|\(\d\)` (line 194), applied to the lowered text. -/
def contribAlts : List (List Tok) :=
  [[.lit ['('], .plus (· == 'i'), .lit [')']],
   [.lit ['('], .one isLowerC, .lit [')']],
   [.lit ['('], .one isDigitC, .lit [')']]]

/-- Lines 194-196: number of enumerator tokens in the lowered text. -/
def contributionListItems (lower : List Char) : ℕ :=
  (findallBy (matchAlts contribAlts) lower).length

/-- `[.!?]`. -/
def isSentSep (c : Char) : Bool := c == '.' || c == '!' || c == '?'

/-- Line 89: `sentences = re.split(r'[.!?]+', text)`. -/
def sentencesOf (cs : List Char) : List (List Char) := splitRuns isSentSep cs

/-- One step of the paragraph-grouping loop (lines 92-101): start a new
paragraph when the sentence contains a double newline or the current paragraph
already has more than 3 sentences; skip whitespace-only sentences. -/
def paraStep (acc : List (List Char) × List (List Char)) (sent : List Char) :
    List (List Char) × List (List Char) :=
  let paras := acc.1
  let cur := acc.2
  if 0 < (pyStrip sent).length then
    if containsSub ['\n', '\n'] sent || 3 < cur.length then
      (paras ++ (if cur.isEmpty then [] else [List.intercalate [' '] cur]),
        [pyStrip sent])
    else (paras, cur ++ [pyStrip sent])
  else (paras, cur)

/-- Lines 91-103: group the sentences into paragraphs (joined with spaces). -/
def paragraphsOf (sents : List (List Char)) : List (List Char) :=
  let res := sents.foldl paraStep ([], [])
  res.1 ++ (if res.2.isEmpty then [] else [List.intercalate [' '] res.2])

/-- Line 167: word counts of paragraphs with more than 10 words. -/
def paraLengths (cs : List Char) : List ℕ :=
  ((paragraphsOf (sentencesOf cs)).map countWords).filter (fun n => 10 < n)

/-- Line 218: word counts of sentences with more than 3 words. -/
def sentLengths (cs : List Char) : List ℕ :=
  ((sentencesOf cs).map countWords).filter (fun n => 3 < n)

/-!  ### Section headers (lines 110-112)

`section_pattern = r'^\d+\.?\s+[A-Z][a-z]+|^[A-Z][A-Z\s]+$'` with
`re.MULTILINE`.  The first alternative is a deterministic token sequence; the
second needs the multiline `$` anchor: a greedy `[A-Z\s]+` run that backtracks
to the longest end position sitting at a line end. -/

/-- First alternative `^\d+\.?\s+[A-Z][a-z]+` (the `^` is handled by the
scanner, which only attempts matches at line starts). -/
def sectionAlt1 : List Tok :=
  [.plus isDigitC, .opt (· == '.'), .plus isPySpace, .one isUpperC,
    .plus isLowerC]

/-- `[A-Z\s]`. -/
def isSectionCls (c : Char) : Bool := isUpperC c || isPySpace c

/-- Multiline `$`: end of text or just before a newline. -/
def dollarAt : List Char → Bool
  | [] => true
  | c :: _ => c == '\n'

/-- Second alternative `^[A-Z][A-Z\s]+$`: take the longest run end that sits at
a line end (greedy `+` with backtracking for the `$`). -/
def alt2At (cs : List Char) : Option (List Char × List Char) :=
  match cs with
  | [] => none
  | u :: rest =>
    if isUpperC u then
      let run := rest.takeWhile isSectionCls
      match ((List.range (run.length + 1)).filter
          (fun k => decide (0 < k) && dollarAt (rest.drop k))).getLast? with
      | some k => some (u :: rest.take k, rest.drop k)
      | none => none
    else none

/-- Did this match end with a newline (so that the next scan position starts a
line)? -/
def endsNl (m : List Char) : Bool := m.getLast? == some '\n'

/-- `re.findall(section_pattern, text, re.MULTILINE)`: scan the text, keeping
track of whether the current position is a line start; both alternatives only
apply there (`^`).  (The fuel argument only exhibits termination: the guard on
`rest.length` makes each step strictly shrink the text, so fuel
`cs.length + 1` is never exhausted.) -/
def sectionScanF : Bool → ℕ → List Char → List (List Char)
  | _, 0, _ => []
  | _, _ + 1, [] => []
  | lineStart, fuel + 1, c :: tl =>
    if lineStart then
      match matchToks sectionAlt1 (c :: tl) with
      | some (m, rest) =>
        if rest.length ≤ tl.length ∧ m ≠ [] then
          m :: sectionScanF (endsNl m) fuel rest
        else m :: sectionScanF (endsNl m) fuel tl
      | none =>
        match alt2At (c :: tl) with
        | some (m, rest) =>
          if rest.length ≤ tl.length ∧ m ≠ [] then
            m :: sectionScanF (endsNl m) fuel rest
          else m :: sectionScanF (endsNl m) fuel tl
        | none => sectionScanF (c == '\n') fuel tl
    else sectionScanF (c == '\n') fuel tl

def sectionScan (lineStart : Bool) (cs : List Char) : List (List Char) :=
  sectionScanF lineStart (cs.length + 1) cs

/-- Lines 110-112: `section_count`. -/
def sectionCount (cs : List Char) : ℕ := (sectionScan true cs).length

/-!  ### Abstract extraction (lines 198-215)

Each pattern is `LABEL[:\s]*(.*?)(?:T1|T2|...)` under
`re.DOTALL | re.IGNORECASE`.  After the label, the greedy `[:\s]*` run is
tried longest first; the lazy group then ends at the first terminator at or
after the run end.  If no terminator exists there, the run backtracks into
itself, which can only succeed at a terminator beginning inside the run
(necessarily `\n1\.`, the only terminator starting with a `[:\s]` character),
leaving an empty group. -/

/-- Case-insensitive prefix test against a lowercase pattern. -/
def ciStarts (pat cs : List Char) : Bool :=
  (cs.take pat.length).map Char.toLower == pat

/-- A terminator alternative of an abstract pattern. -/
inductive TermPat where
  | ciStr (s : List Char)
  | oneWsIntro
  | nlOneDot

/-- Does one of the terminators match at the start of `cs`?
(`1\s+introduction` is case-insensitive on the word, `\n1\.` is literal.) -/
def isTermAt (terms : List TermPat) (cs : List Char) : Bool :=
  terms.any (fun t =>
    match t with
    | .ciStr s => ciStarts s cs
    | .oneWsIntro =>
      match cs with
      | '1' :: rest =>
        !(rest.takeWhile isPySpace).isEmpty &&
          ciStarts "introduction".data (rest.dropWhile isPySpace)
      | _ => false
    | .nlOneDot =>
      match cs with
      | '\n' :: '1' :: '.' :: _ => true
      | _ => false)

/-- The (lazy) group: text before the first terminator position, `none` if no
terminator occurs. -/
def firstTermPre (terms : List TermPat) : List Char → Option (List Char)
  | [] => none
  | c :: rest =>
    if isTermAt terms (c :: rest) then some []
    else (firstTermPre terms rest).map (fun pre => c :: pre)

/-- Is there a terminator starting inside `run` (continuing into `after`)? -/
def anyTermSuffix (terms : List TermPat) (after : List Char) : List Char → Bool
  | [] => false
  | c :: rest =>
    isTermAt terms (c :: rest ++ after) || anyTermSuffix terms after rest

/-- `[:\s]`. -/
def isColSp (c : Char) : Bool := c == ':' || isPySpace c

/-- Try an abstract pattern at this position; returns `group(1)` on success. -/
def absAt (label : List Char) (terms : List TermPat) (cs : List Char) :
    Option (List Char) :=
  if ciStarts label cs then
    let s2 := cs.drop label.length
    let run := s2.takeWhile isColSp
    let after := s2.dropWhile isColSp
    match firstTermPre terms after with
    | some pre => some pre
    | none => if anyTermSuffix terms after run then some [] else none
  else none

/-- `re.search` for an abstract pattern: leftmost matching position wins. -/
def absSearch (label : List Char) (terms : List TermPat) :
    List Char → Option (List Char)
  | [] => none
  | c :: tl =>
    match absAt label terms (c :: tl) with
    | some g => some g
    | none => absSearch label terms tl

/-- Lines 198-215: try the three abstract patterns in order (the first two are
identical under `re.IGNORECASE`); report the word count of the first group
found, 0 if none. -/
def abstractWordCount (cs : List Char) : ℕ :=
  let terms1 : List TermPat :=
    [.ciStr "introduction".data, .ciStr "keywords".data, .oneWsIntro, .nlOneDot]
  let terms3 : List TermPat :=
    [.ciStr "introduction".data, .oneWsIntro, .nlOneDot]
  match absSearch "abstract".data terms1 cs with
  | some g => countWords g
  | none =>
    match absSearch "abstract".data terms1 cs with
    | some g => countWords g
    | none =>
      match absSearch "summary".data terms3 cs with
      | some g => countWords g
      | none => 0

/-!  ### Reference section (lines 131-164)

Each header pattern is `LABEL\s*\n(.*?)(?:\n\n[A-Z]|\Z)` under
`re.DOTALL | re.IGNORECASE`; the greedy `\s*` backtracks to the last newline of
the whitespace run following the label. -/

/-- The lazy group after the header: everything before the first `\n\n[A-Z]`,
or up to the end of text. -/
def refGroupPre : List Char → List Char
  | '\n' :: '\n' :: u :: rest =>
    if isUpperC u then [] else '\n' :: refGroupPre ('\n' :: u :: rest)
  | c :: rest => c :: refGroupPre rest
  | [] => []

/-- Try a references-header pattern at this position (`optS`: the label has an
optional trailing `s?`). -/
def refAt (label : List Char) (optS : Bool) (cs : List Char) :
    Option (List Char) :=
  if ciStarts label cs then
    let r1 := cs.drop label.length
    let r2 :=
      if optS then
        match r1 with
        | c :: rest => if c.toLower == 's' then rest else r1
        | [] => r1
      else r1
    let run := r2.takeWhile isPySpace
    if '\n' ∈ run then
      some (refGroupPre
        ((run.reverse.takeWhile (fun c => !(c == '\n'))).reverse ++
          r2.dropWhile isPySpace))
    else none
  else none

/-- `re.search` for one header pattern. -/
def refSearchOne (label : List Char) (optS : Bool) : List Char → Option (List Char)
  | [] => none
  | c :: tl =>
    match refAt label optS (c :: tl) with
    | some g => some g
    | none => refSearchOne label optS tl

/-- Lines 132-143: the four header patterns tried in order (the first two are
identical under `re.IGNORECASE`); first match wins. -/
def refSearch (cs : List Char) : Option (List Char) :=
  match refSearchOne "reference".data true cs with
  | some g => some g
  | none =>
    match refSearchOne "reference".data true cs with
    | some g => some g
    | none =>
      match refSearchOne "bibliography".data false cs with
      | some g => some g
      | none => refSearchOne "works cited".data false cs

/-- Line 153-156: does a (stripped) line look like the start of a reference
entry?  (`re.match` of one of the four anchored patterns.) -/
def startsRefLine (l : List Char) : Bool :=
  (matchToks [.lit ['['], .plus isDigitC, .lit [']']] l).isSome ||
  (matchToks [.plus isDigitC, .lit ['.']] l).isSome ||
  (matchToks [.one isUpperC, .plus isLowerC, .opt (· == ','), .plus isPySpace,
    .one isUpperC] l).isSome ||
  (matchToks [.one isUpperC, .plus isLowerC, .plus isPySpace, .one isUpperC,
    .plus isLowerC] l).isSome

/-- word boundary on the left: previous character (if any) is not a word char. -/
def boundaryBefore : Option Char → Bool
  | some c => !isWordChar c
  | none => true

/-- word boundary on the right of a match ending here. -/
def boundaryAfterHead : List Char → Bool
  | [] => true
  | e :: _ => !isWordChar e

/-- `re.search(r'\b(?:19|20)\d{2}\b', ·)`: does the text contain a year
1900-2099 at word boundaries? -/
def hasYearAux (prev : Option Char) : List Char → Bool
  | a :: b :: c2 :: d :: rest =>
    (boundaryBefore prev &&
        ((a == '1' && b == '9') || (a == '2' && b == '0')) &&
        isDigitC c2 && isDigitC d && boundaryAfterHead rest) ||
      hasYearAux (some a) (b :: c2 :: d :: rest)
  | a :: rest => hasYearAux (some a) rest
  | [] => false

def hasYear (l : List Char) : Bool := hasYearAux none l

/-- Lines 148-160: count lines of the references block that start like a
reference entry and carry a year on the same or the next (raw) line. -/
def countRefEntries : List (List Char) → ℕ
  | [] => 0
  | l :: rest =>
    (if startsRefLine (pyStrip l) &&
        (hasYear (pyStrip l) ||
          (match rest with
           | nl :: _ => hasYear nl
           | [] => false)) then 1 else 0) + countRefEntries rest

/-- Lines 145-164: the reference count — entries of the references block when a
header was found, otherwise the citation count. -/
def referenceCount (cs : List Char) : ℕ :=
  match refSearch cs with
  | some g => countRefEntries (g.splitOn '\n')
  | none => citationCount cs

/-!  ### Self-reference ("we") statistics (lines 42-77) -/

/-- Count of `re.findall(r'\bwe\b', ·)` on a lowered page text: occurrences of
`we` with non-word characters (or text ends) on both sides.  Matches of this
pattern can never overlap, so counting qualifying positions equals the
findall count. -/
def weCountAux (prev : Option Char) : List Char → ℕ
  | 'w' :: 'e' :: rest =>
    if boundaryBefore prev && boundaryAfterHead rest then
      1 + weCountAux (some 'e') rest
    else weCountAux (some 'w') ('e' :: rest)
  | c :: rest => weCountAux (some c) rest
  | [] => 0

def weCount (pageLower : List Char) : ℕ := weCountAux none pageLower

/-- Lines 50-52: `for i, page_text in enumerate(self.page_texts, start=1)`. -/
def wePerPageAux (i : ℕ) : List String → List (ℕ × ℕ)
  | [] => []
  | p :: rest => (i, weCount (lowerL p.data)) :: wePerPageAux (i + 1) rest

/-- The `we_stats` mapping: field names follow the Python dict keys
`we_count_per_page`, `we_count_total`, `we_count_per_page_min` (minimum of the
strictly positive counts), `we_count_per_page_max`, `we_count_per_page_avg`,
`we_per_1000`. -/
structure WeStats where
  perPage : List (ℕ × ℕ)
  total : ℕ
  minPos : ℕ
  maxAll : ℕ
  avg : ℚ
  per1000 : ℚ
deriving DecidableEq, Repr

/-- Python's `round(q, 2)`: banker's rounding to two decimal places (float
representation artifacts are outside this model). -/
def roundHalfEven (q : ℚ) : ℤ :=
  let f := ⌊q⌋
  let r := q - f
  if r < 1 / 2 then f
  else if 1 / 2 < r then f + 1
  else if f % 2 = 0 then f else f + 1

def pyRound2 (q : ℚ) : ℚ := (roundHalfEven (q * 100) : ℚ) / 100

/-- `min(positive_values)` with default 0 (lines 60-64). -/
def listMinPos (vals : List ℕ) : ℕ :=
  match vals.filter (fun v => 0 < v) with
  | [] => 0
  | v :: rest => rest.foldl min v

/-- `max(we_values)` with default 0 (lines 66-71). -/
def listMaxAll (vals : List ℕ) : ℕ :=
  match vals with
  | [] => 0
  | v :: rest => rest.foldl max v

/-- `_calculate_we_stats(text)` with `self.page_texts = pages` (lines 42-77). -/
def weStatsOf (pages : List String) (text : String) : WeStats :=
  let perPage := wePerPageAux 1 pages
  let vals := perPage.map Prod.snd
  let total := vals.sum
  let ws := wordsOf (lowerL text.data)
  { perPage := perPage
    total := total
    minPos := listMinPos vals
    maxAll := listMaxAll vals
    avg := if vals.isEmpty then 0 else pyRound2 ((total : ℚ) / vals.length)
    per1000 := if ws.isEmpty then 0 else ((total : ℚ) / ws.length) * 1000 }

/-!  ### `calculate_metrics` (lines 79-224) -/

/-- The metric keys, in assignment order. -/
def metricKeys : List String :=
  ["page_count", "hedging_per_100", "section_count", "citation_count",
   "reference_count", "paragraph_length_std", "paragraph_length_mean",
   "avg_decimal_places", "round_number_ratio", "transitions_per_page",
   "contribution_list_items", "abstract_word_count", "sentence_length_std"]

/-- `calculate_metrics(text)` with `self.page_count = pageCount` (the Python
dict, as an association list in assignment order; every value is numeric by
construction of `MVal`). -/
def calculateMetrics (pageCount : ℕ) (text : String) : List (String × MVal) :=
  let cs := text.data
  let lower := lowerL cs
  let pls := paraLengths cs
  let sls := sentLengths cs
  [("page_count", .num pageCount),
   ("hedging_per_100", .num (hedgingPer100 lower)),
   ("section_count", .num (sectionCount cs)),
   ("citation_count", .num (citationCount cs)),
   ("reference_count", .num (referenceCount cs)),
   ("paragraph_length_std",
     if 1 < pls.length then .sqrtv (sampleVar pls) else .num 0),
   ("paragraph_length_mean",
     .num (if 1 < pls.length then meanNat pls
       else if pls.isEmpty then 0 else (pls.map (fun x => (x : ℚ))).sum / pls.length)),
   ("avg_decimal_places", .num (avgDecimalPlaces cs)),
   ("round_number_ratio", .num (roundNumberRatio cs)),
   ("transitions_per_page", .num (transitionsPerPage lower cs.length)),
   ("contribution_list_items", .num (contributionListItems lower)),
   ("abstract_word_count", .num (abstractWordCount cs)),
   ("sentence_length_std",
     if 1 < sls.length then .sqrtv (sampleVar sls) else .num 0)]

/-!  ### `extract_text` / `analyze_paper` (lines 28-40, 226-236)

PDF parsing is an external collaborator; a document is modelled as the list of
its page texts (what `PyPDF2` would extract per page). -/

/-- `extract_text` (lines 28-40): returns (full text joined with newlines,
page texts, page count).  `max_pages or total_pages` treats both `None` and
`0` as "no limit". -/
def extractText (docPages : List String) (maxPages : Option ℕ) :
    String × List String × ℕ :=
  let total := docPages.length
  let req :=
    match maxPages with
    | none => total
    | some m => if m = 0 then total else m
  let limit := min req total
  let pages := docPages.take limit
  (String.intercalate "\n" pages, pages, limit)

/-- `analyze_paper` (lines 226-236) after the fetch: extract, then compute the
base metrics and the self-reference statistics. -/
def analyzePaper (docPages : List String) (maxPages : Option ℕ) :
    List (String × MVal) × WeStats :=
  let e := extractText docPages maxPages
  (calculateMetrics e.2.2 e.1, weStatsOf e.2.1 e.1)

/-!  ### Helper lemmas for the claims -/

theorem wePerPageAux_length (i : ℕ) (ps : List String) :
    (wePerPageAux i ps).length = ps.length := by
  induction ps generalizing i with
  | nil => rfl
  | cons p rest ih => simp [wePerPageAux, ih]

theorem wePerPageAux_map_fst (i : ℕ) (ps : List String) :
    (wePerPageAux i ps).map Prod.fst = List.range' i ps.length := by
  induction ps generalizing i with
  | nil => rfl
  | cons p rest ih =>
    simp only [wePerPageAux, List.map_cons, List.length_cons, List.range']
    rw [ih]

theorem roundNumberRatio_nonneg (cs : List Char) : 0 ≤ roundNumberRatio cs := by
  unfold roundNumberRatio
  apply div_nonneg
  · positivity
  · positivity

theorem roundNumberRatio_le_one (cs : List Char) : roundNumberRatio cs ≤ 1 := by
  unfold roundNumberRatio
  rw [div_le_one]
  · have h1 : (numbersList cs).countP isRoundTok ≤ (numbersList cs).length :=
      List.countP_le_length isRoundTok
    have h2 : (numbersList cs).length ≤ max (numbersList cs).length 1 :=
      le_max_left _ _
    exact_mod_cast le_trans h1 h2
  · have : 1 ≤ max (numbersList cs).length 1 := le_max_right _ _
    exact_mod_cast Nat.lt_of_lt_of_le Nat.zero_lt_one this

theorem hedgingPer100_nonneg (lower : List Char) : 0 ≤ hedgingPer100 lower := by
  by_cases h : (wordsOf lower).isEmpty
  · simp [hedgingPer100, h]
  · simp only [hedgingPer100, h, if_false, Bool.false_eq_true]
    positivity

theorem hedgingPer100_le_100 (lower : List Char) : hedgingPer100 lower ≤ 100 := by
  by_cases h : (wordsOf lower).isEmpty
  · simp [hedgingPer100, h]
  · simp only [hedgingPer100, h, if_false, Bool.false_eq_true]
    have hlen : 0 < (wordsOf lower).length := by
      cases hw : wordsOf lower with
      | nil => rw [hw] at h; simp at h
      | cons a l => simp [hw]
    have hcount : (wordsOf lower).countP (fun w => hedgingWords.contains w) ≤
        (wordsOf lower).length := List.countP_le_length _
    have hq : ((wordsOf lower).countP (fun w => hedgingWords.contains w) : ℚ) /
        ((wordsOf lower).length : ℚ) ≤ 1 := by
      rw [div_le_one (by exact_mod_cast hlen)]
      exact_mod_cast hcount
    calc ((wordsOf lower).countP (fun w => hedgingWords.contains w) : ℚ) /
          ((wordsOf lower).length : ℚ) * 100
        ≤ 1 * 100 := by
          apply mul_le_mul_of_nonneg_right hq
          norm_num
      _ = 100 := by norm_num

theorem matchAlts_split {alts : List (List Tok)} {cs m r : List Char}
    (h : matchAlts alts cs = some (m, r)) : m ++ r = cs := by
  induction alts with
  | nil => simp [matchAlts] at h
  | cons a rest ih =>
    simp only [matchAlts] at h
    cases h1 : matchToks a cs with
    | some p =>
      obtain ⟨m1, r1⟩ := p
      simp only [h1, Option.some.injEq, Prod.mk.injEq] at h
      obtain ⟨rfl, rfl⟩ := h
      exact matchToks_split h1
    | none =>
      simp only [h1] at h
      exact ih h

/-!  ### The amended contribution-items claim: a direct characterisation

`specEnumCount` states the amended claim in its own words: scanning left to
right, count the enumerators `(` one-or-more `i`s `)`, `(` single lowercase
letter `)`, `(` single digit `)` (first shape preferred, non-overlapping,
advancing one character past an unmatched `(`).  `claimEnumCount` states the
original claim's narrower reading, in which only `(i)`, `(ii)`, `(iii)`,
`(<letter>)` and `(<digit>)` count and no other parenthesized token does. -/

/-- Tail of an enumerator at a `(`: the amended claim's three shapes. -/
def specEnumTail (cs : List Char) : Option (List Char) :=
  match cs.takeWhile (fun c => c == 'i'), cs.dropWhile (fun c => c == 'i') with
  | _ :: _, ')' :: r => some r
  | _, _ =>
    match cs with
    | c :: ')' :: r => if isLowerC c || isDigitC c then some r else none
    | _ => none

/-- The amended claim's count.  (The fuel only exhibits termination: an
enumerator tail is shorter than the text after the `(`, so fuel
`cs.length + 1` is never exhausted.) -/
def specEnumCountF : ℕ → List Char → ℕ
  | 0, _ => 0
  | _ + 1, [] => 0
  | fuel + 1, c :: tl =>
    if c = '(' then
      match specEnumTail tl with
      | some r =>
        if r.length ≤ tl.length then 1 + specEnumCountF fuel r
        else 1 + specEnumCountF fuel tl
      | none => specEnumCountF fuel tl
    else specEnumCountF fuel tl

def specEnumCount (cs : List Char) : ℕ := specEnumCountF (cs.length + 1) cs

theorem specEnumCountF_fuel :
    ∀ (a b : ℕ) (cs : List Char), cs.length < a → cs.length < b →
      specEnumCountF a cs = specEnumCountF b cs := by
  intro a
  induction a with
  | zero => exact fun b cs ha _ => absurd ha (Nat.not_lt_zero _)
  | succ a ih =>
    intro b cs ha hb
    cases b with
    | zero => exact absurd hb (Nat.not_lt_zero _)
    | succ b =>
      cases cs with
      | nil => rfl
      | cons c tl =>
        have ha' : tl.length < a := by
          simp only [List.length_cons] at ha
          omega
        have hb' : tl.length < b := by
          simp only [List.length_cons] at hb
          omega
        simp only [specEnumCountF]
        by_cases hc : c = '('
        · rw [if_pos hc, if_pos hc]
          cases h1 : specEnumTail tl with
          | none => exact ih b tl ha' hb'
          | some r =>
            show (if r.length ≤ tl.length then 1 + specEnumCountF a r
                else 1 + specEnumCountF a tl) =
              (if r.length ≤ tl.length then 1 + specEnumCountF b r
                else 1 + specEnumCountF b tl)
            by_cases hr : r.length ≤ tl.length
            · rw [if_pos hr, if_pos hr, ih b r (by omega) (by omega)]
            · rw [if_neg hr, if_neg hr, ih b tl ha' hb']
        · rw [if_neg hc, if_neg hc]
          exact ih b tl ha' hb'

theorem specEnumCount_nil_eval : specEnumCount [] = 0 := rfl

theorem specEnumCount_cons_eval (c : Char) (tl : List Char) :
    specEnumCount (c :: tl) =
      (if c = '(' then
        match specEnumTail tl with
        | some r =>
          if r.length ≤ tl.length then 1 + specEnumCount r
          else 1 + specEnumCount tl
        | none => specEnumCount tl
      else specEnumCount tl) := by
  show specEnumCountF ((c :: tl).length + 1) (c :: tl) = _
  simp only [List.length_cons, specEnumCountF]
  by_cases hc : c = '('
  · rw [if_pos hc, if_pos hc]
    cases h1 : specEnumTail tl with
    | none => rfl
    | some r =>
      show (if r.length ≤ tl.length then 1 + specEnumCountF (tl.length + 1) r
          else 1 + specEnumCountF (tl.length + 1) tl) =
        (if r.length ≤ tl.length then 1 + specEnumCount r
          else 1 + specEnumCount tl)
      by_cases hr : r.length ≤ tl.length
      · rw [if_pos hr, if_pos hr,
          specEnumCountF_fuel (tl.length + 1) (r.length + 1) r
            (by omega) (by omega)]
        rfl
      · rw [if_neg hr, if_neg hr]
        rfl
  · rw [if_neg hc, if_neg hc]
    rfl

/-- The original claim's count: exactly `(i)`, `(ii)`, `(iii)`,
`(<single letter>)`, `(<single digit>)`, nothing else. -/
def claimEnumCount : List Char → ℕ
  | '(' :: 'i' :: ')' :: r => 1 + claimEnumCount r
  | '(' :: 'i' :: 'i' :: ')' :: r => 1 + claimEnumCount r
  | '(' :: 'i' :: 'i' :: 'i' :: ')' :: r => 1 + claimEnumCount r
  | '(' :: c :: ')' :: r =>
    if isLowerC c || isDigitC c then 1 + claimEnumCount r
    else claimEnumCount (c :: ')' :: r)
  | _ :: tl => claimEnumCount tl
  | [] => 0

theorem matchToks_cons_eval (t : Tok) (ts : List Tok) (cs : List Char) :
    matchToks (t :: ts) cs =
      (matchTok t cs).bind
        (fun p => (matchToks ts p.2).map (fun q => (p.1 ++ q.1, q.2))) := by
  cases h1 : matchTok t cs with
  | none => simp [matchToks, h1]
  | some p1 =>
    obtain ⟨m1, cs1⟩ := p1
    cases h2 : matchToks ts cs1 with
    | none => simp [matchToks, h1, h2]
    | some p2 => simp [matchToks, h1, h2]

theorem e_lit_open (tl : List Char) :
    matchTok (Tok.lit ['(']) ('(' :: tl) = some (['('], tl) := by
  simp [matchTok]


theorem contrib_step (tl : List Char) :
    (specEnumTail tl = none → matchAlts contribAlts ('(' :: tl) = none) ∧
    (∀ r, specEnumTail tl = some r →
      ∃ m, matchAlts contribAlts ('(' :: tl) = some (m, r) ∧ m ≠ []) := by
  cases tl with
  | nil =>
    refine ⟨fun _ => by decide, fun r hr => ?_⟩
    rw [(by decide : specEnumTail [] = none)] at hr
    exact absurd hr (by simp)
  | cons c tl2 =>
    by_cases hc : c = 'i'
    · subst hc
      cases hdw : tl2.dropWhile (fun c => c == 'i') with
      | cons d rest =>
        by_cases hd : d = ')'
        · subst hd
          have hspec : specEnumTail ('i' :: tl2) = some rest := by
            simp [specEnumTail, hdw]
          refine ⟨fun hn => ?_, fun r hr => ?_⟩
          · rw [hspec] at hn
            exact absurd hn (by simp)
          · rw [hspec] at hr
            obtain rfl := Option.some.inj hr
            refine ⟨'(' :: ('i' :: tl2.takeWhile (fun c => c == 'i')) ++ [')'],
              ?_, by simp⟩
            simp [matchAlts, contribAlts, matchToks_cons_eval, e_lit_open,
              matchTok, matchToks, hdw]
        · cases tl2 with
          | nil => simp at hdw
          | cons c1 tl3 =>
            have hc1 : ¬ c1 = ')' := by
              intro h
              subst h
              rw [List.dropWhile_cons_of_neg (by decide)] at hdw
              obtain ⟨h3, -⟩ := List.cons.inj hdw
              exact hd h3.symm
            have hspec : specEnumTail ('i' :: c1 :: tl3) = none := by
              simp only [specEnumTail,
                List.takeWhile_cons_of_pos (p := fun c => c == 'i')
                  (show (('i' : Char) == 'i') = true by decide),
                List.dropWhile_cons_of_pos (p := fun c => c == 'i')
                  (show (('i' : Char) == 'i') = true by decide)]
              split
              · rename_i h1 h2
                exfalso
                rw [hdw] at h2
                obtain ⟨h3, -⟩ := List.cons.inj h2
                exact hd h3
              · split
                · rename_i h4
                  exfalso
                  obtain ⟨-, h5⟩ := List.cons.inj h4
                  obtain ⟨h6, -⟩ := List.cons.inj h5
                  exact hc1 h6
                · rfl
            refine ⟨fun _ => ?_, fun r hr => ?_⟩
            · simp [matchAlts, contribAlts, matchToks_cons_eval, e_lit_open,
                matchTok, matchToks, hdw, Ne.symm hd, Ne.symm hc1,
                (by decide : isLowerC 'i' = true),
                (by decide : isDigitC 'i' = false)]
            · rw [hspec] at hr
              exact absurd hr (by simp)
      | nil =>
        cases tl2 with
        | nil =>
          refine ⟨fun _ => by decide, fun r hr => ?_⟩
          rw [(by decide : specEnumTail ['i'] = none)] at hr
          exact absurd hr (by simp)
        | cons c1 tl3 =>
          have hc1 : ¬ c1 = ')' := by
            intro h
            subst h
            rw [List.dropWhile_cons_of_neg (by decide)] at hdw
            exact absurd hdw (by simp)
          have hspec : specEnumTail ('i' :: c1 :: tl3) = none := by
            simp [specEnumTail, hdw, Ne.symm hc1, hc1]
          refine ⟨fun _ => ?_, fun r hr => ?_⟩
          · simp [matchAlts, contribAlts, matchToks_cons_eval, e_lit_open,
              matchTok, matchToks, hdw, Ne.symm hc1,
              (by decide : isLowerC 'i' = true),
              (by decide : isDigitC 'i' = false)]
          · rw [hspec] at hr
            exact absurd hr (by simp)
    · have hci : (c == 'i') = false := by simp [hc]
      cases tl2 with
      | nil =>
        refine ⟨fun _ => ?_, fun r hr => ?_⟩
        · cases hl : isLowerC c <;> cases hdd : isDigitC c <;>
            simp [matchAlts, contribAlts, matchToks_cons_eval, e_lit_open,
              matchTok, matchToks, hci, hl, hdd]
        · rw [(show specEnumTail [c] = none by simp [specEnumTail, hci])] at hr
          exact absurd hr (by simp)
      | cons c2 tl3 =>
        by_cases hc2 : c2 = ')'
        · subst hc2
          have hspec : specEnumTail (c :: ')' :: tl3) =
              (if isLowerC c || isDigitC c then some tl3 else none) := by
            simp [specEnumTail, hci]
          by_cases hld : (isLowerC c || isDigitC c) = true
          · refine ⟨fun hn => ?_, fun r hr => ?_⟩
            · rw [hspec, if_pos hld] at hn
              exact absurd hn (by simp)
            · rw [hspec, if_pos hld] at hr
              obtain rfl := Option.some.inj hr
              refine ⟨['(', c, ')'], ?_, by simp⟩
              by_cases hl : isLowerC c = true
              · simp [matchAlts, contribAlts, matchToks_cons_eval, e_lit_open,
                  matchTok, matchToks, hci, hl]
              · have hl' : isLowerC c = false := by
                  cases hlv : isLowerC c
                  · rfl
                  · exact absurd hlv hl
                have hdd : isDigitC c = true := by
                  rw [Bool.or_eq_true] at hld
                  rcases hld with h | h
                  · exact absurd h hl
                  · exact h
                simp [matchAlts, contribAlts, matchToks_cons_eval, e_lit_open,
                  matchTok, matchToks, hci, hl', hdd]
          · refine ⟨fun _ => ?_, fun r hr => ?_⟩
            · have hl : isLowerC c = false := by
                cases hlv : isLowerC c
                · rfl
                · exact absurd (by simp [hlv] : (isLowerC c || isDigitC c) = true) hld
              have hdd : isDigitC c = false := by
                cases hdv : isDigitC c
                · rfl
                · exact absurd (by simp [hdv] : (isLowerC c || isDigitC c) = true) hld
              simp [matchAlts, contribAlts, matchToks_cons_eval, e_lit_open,
                matchTok, matchToks, hci, hl, hdd]
            · rw [hspec, if_neg hld] at hr
              exact absurd hr (by simp)
        · refine ⟨fun _ => ?_, fun r hr => ?_⟩
          · cases hl : isLowerC c <;> cases hdd : isDigitC c <;>
              simp [matchAlts, contribAlts, matchToks_cons_eval, e_lit_open,
                matchTok, matchToks, hci, hc2, Ne.symm hc2, hl, hdd]
          · rw [(show specEnumTail (c :: c2 :: tl3) = none by
              simp [specEnumTail, hci, hc2, Ne.symm hc2])] at hr
            exact absurd hr (by simp)

theorem contrib_nonparen {c : Char} (hc : ¬ c = '(') (tl : List Char) :
    matchAlts contribAlts (c :: tl) = none := by
  simp [matchAlts, contribAlts, matchToks_cons_eval, matchTok, matchToks,
    Ne.symm hc]

theorem contribution_eq_aux : ∀ (n : ℕ) (cs : List Char), cs.length ≤ n →
    (findallBy (matchAlts contribAlts) cs).length = specEnumCount cs := by
  intro n
  induction n with
  | zero =>
    intro cs h
    have : cs = [] := List.length_eq_zero.mp (Nat.le_zero.mp h)
    subst this
    decide
  | succ n ih =>
    intro cs hlen
    cases cs with
    | nil => decide
    | cons c tl =>
      simp only [List.length_cons] at hlen
      by_cases hc : c = '('
      · subst hc
        obtain ⟨hnone, hsome⟩ := contrib_step tl
        cases hse : specEnumTail tl with
        | none =>
          have hma := hnone hse
          simp only [findallBy_cons_eval, hma, specEnumCount_cons_eval, hse,
            if_pos rfl]
          exact ih tl (by omega)
        | some r =>
          obtain ⟨m, hma, hmne⟩ := hsome r hse
          have hsp := matchAlts_split hma
          have hrle : r.length ≤ tl.length := by
            have h1 : m.length + r.length = tl.length + 1 := by
              rw [← List.length_append, hsp]
              simp
            have h2 := List.length_pos.mpr hmne
            omega
          simp only [findallBy_cons_eval, hma,
            if_pos (And.intro hrle hmne), specEnumCount_cons_eval, hse,
            if_pos rfl, if_pos hrle, if_true, List.length_cons]
          rw [ih r (by omega)]
          exact Nat.add_comm _ 1
      · have hma := contrib_nonparen hc tl
        simp only [findallBy_cons_eval, hma, specEnumCount_cons_eval,
          if_neg hc]
        exact ih tl (by omega)

theorem contributionListItems_eq_specEnumCount (lower : List Char) :
    contributionListItems lower = specEnumCount lower :=
  contribution_eq_aux lower.length lower le_rfl

/-!  ### The claims -/

/-- C1: for every page count and text, `calculate_metrics` returns a mapping
with exactly the thirteen fixed metric keys, in order, every value numeric by
construction of `MVal`; the function is total (so no sub-metric aborts the
others), and on `full_text = ""` with page count 0 every metric is 0. -/
theorem C1_metricset_total_and_zero_on_empty :
    (∀ (pc : ℕ) (t : String),
      (calculateMetrics pc t).map Prod.fst = metricKeys) ∧
    calculateMetrics 0 "" =
      [("page_count", .num 0), ("hedging_per_100", .num 0),
       ("section_count", .num 0), ("citation_count", .num 0),
       ("reference_count", .num 0), ("paragraph_length_std", .num 0),
       ("paragraph_length_mean", .num 0), ("avg_decimal_places", .num 0),
       ("round_number_ratio", .num 0), ("transitions_per_page", .num 0),
       ("contribution_list_items", .num 0), ("abstract_word_count", .num 0),
       ("sentence_length_std", .num 0)] := by
  constructor
  · intro pc t
    rfl
  · have h1 : transCount (lowerL "".data) = 0 := by decide
    have h2 : numbersList "".data = [] := by decide
    have h3 : paraLengths "".data = [] := by decide
    have h4 : sentLengths "".data = [] := by decide
    have h5 : sectionCount "".data = 0 := by decide
    have h6 : citationCount "".data = 0 := by decide
    have h7 : referenceCount "".data = 0 := by decide
    have h8 : abstractWordCount "".data = 0 := by decide
    have h9 : contributionListItems (lowerL "".data) = 0 := by decide
    have h10 : avgDecimalPlaces "".data = 0 := rfl
    have h11 : hedgingPer100 (lowerL "".data) = 0 := rfl
    simp [calculateMetrics, transitionsPerPage, roundNumberRatio, h1, h2, h3,
      h4, h5, h6, h7, h8, h9, h10, h11]

/-- C2 (counterexample): on `page_texts = ["we show we can", "We also show"]`
the `\bwe\b` count on the lowered second page is 1 (only the standalone word
`we` matches), so the claimed per-page counts `{1: 2, 2: 2}`, total 4 and
min 2 are all wrong. -/
theorem C2_counterexample :
    (weStatsOf ["we show we can", "We also show"]
        "we show we can\nWe also show").perPage ≠ [(1, 2), (2, 2)] ∧
    (weStatsOf ["we show we can", "We also show"]
        "we show we can\nWe also show").total ≠ 4 ∧
    (weStatsOf ["we show we can", "We also show"]
        "we show we can\nWe also show").minPos ≠ 2 := by
  refine ⟨by decide, by decide, by decide⟩

/-- C2 (amended): the statistics `_calculate_we_stats` actually computes for
`page_texts = ["we show we can", "We also show"]`: per-page counts
`{1: 2, 2: 1}`, total 3, min 1 (minimum of the positive counts), max 2,
average 1.5, and 3 matches per 7 words normalized per 1000. -/
theorem C2_amended :
    (weStatsOf ["we show we can", "We also show"]
        "we show we can\nWe also show").perPage = [(1, 2), (2, 1)] ∧
    (weStatsOf ["we show we can", "We also show"]
        "we show we can\nWe also show").total = 3 ∧
    (weStatsOf ["we show we can", "We also show"]
        "we show we can\nWe also show").minPos = 1 ∧
    (weStatsOf ["we show we can", "We also show"]
        "we show we can\nWe also show").maxAll = 2 ∧
    (weStatsOf ["we show we can", "We also show"]
        "we show we can\nWe also show").avg = 3 / 2 ∧
    (weStatsOf ["we show we can", "We also show"]
        "we show we can\nWe also show").per1000 = 3000 / 7 := by
  have hp : wePerPageAux 1 ["we show we can", "We also show"] =
      [(1, 2), (2, 1)] := by decide
  have hw : (wordsOf (lowerL "we show we can\nWe also show".data)).length = 7 := by
    decide
  have hwe : (wordsOf (lowerL "we show we can\nWe also show".data)).isEmpty =
      false := by decide
  refine ⟨by decide, by decide, by decide, by decide, ?_, ?_⟩
  · simp only [weStatsOf, hp]
    norm_num [pyRound2, roundHalfEven]
  · simp only [weStatsOf, hp]
    norm_num [hw, hwe]

/-- C3 (counterexample): on `"Abstract: This paper studies X. Introduction: ..."`
the metric map carries `abstract_word_count` computed by `abstractWordCount`,
and that count is not 5: the captured group ends at the `Introduction`
boundary, giving `"This paper studies X. "` (note the label `Abstract:`
consumes only up to the first space), whose `.split()` has 4 words. -/
theorem C3_counterexample :
    ("abstract_word_count",
        MVal.num (abstractWordCount
          "Abstract: This paper studies X. Introduction: ...".data)) ∈
      calculateMetrics 0 "Abstract: This paper studies X. Introduction: ..." ∧
    abstractWordCount
        "Abstract: This paper studies X. Introduction: ...".data ≠ 5 := by
  refine ⟨by simp [calculateMetrics], by decide⟩

/-- C3 (amended): `abstract_word_count` is 4 on that text — the word count of
the span `"This paper studies X. "` between the label and `Introduction`. -/
theorem C3_amended :
    abstractWordCount
        "Abstract: This paper studies X. Introduction: ...".data = 4 ∧
    ("abstract_word_count",
        MVal.num (abstractWordCount
          "Abstract: This paper studies X. Introduction: ...".data)) ∈
      calculateMetrics 0 "Abstract: This paper studies X. Introduction: ..." := by
  refine ⟨by decide, by simp [calculateMetrics]⟩

/-- Modelled from the claim's words (not from the code): the text contains one
of the four listed header strings — `References`, `REFERENCES`,
`Bibliography`, `Works Cited` — followed by a newline, case-sensitively as
listed. -/
def hasListedHeader (cs : List Char) : Bool :=
  containsSub "References\n".data cs || containsSub "REFERENCES\n".data cs ||
    containsSub "Bibliography\n".data cs || containsSub "Works Cited\n".data cs

/-- C4 (counterexample): the code's header search is case-insensitive, so a
text containing only the lowercase header `references` — none of the four
listed headers — still enters the references branch: here the block after the
header has no year-bearing entry lines, so `reference_count` is 0 while
`citation_count` is 2, refuting "reference_count equals citation_count for
every text containing no references/bibliography section header". -/
theorem C4_counterexample :
    hasListedHeader "see [1] and [2]\nreferences\nnothing here".data = false ∧
    citationCount "see [1] and [2]\nreferences\nnothing here".data = 2 ∧
    referenceCount "see [1] and [2]\nreferences\nnothing here".data = 0 := by
  refine ⟨by decide, by decide, by decide⟩

/-- C4 (amended): whenever the code's own case-insensitive header search
(`refSearch`, embedding the four `re.IGNORECASE` patterns of lines 132-143)
finds no header, `reference_count` equals `citation_count`; in particular a
text with no header containing `[1]` and `[2]` once each yields
`citation_count = 2` and `reference_count = 2`. -/
theorem C4_amended :
    (∀ t : String, refSearch t.data = none →
      referenceCount t.data = citationCount t.data) ∧
    citationCount "see [1] and [2].".data = 2 ∧
    referenceCount "see [1] and [2].".data = 2 := by
  refine ⟨?_, by decide, by decide⟩
  intro t h
  simp [referenceCount, h]

/-- C4 (witness): the amended fallback applied at the concrete header-free
text `"see [1] and [2]."`. -/
theorem C4_amended_witness :
    refSearch "see [1] and [2].".data = none ∧
    referenceCount "see [1] and [2].".data =
      citationCount "see [1] and [2].".data :=
  ⟨by decide, C4_amended.1 "see [1] and [2]." (by decide)⟩

/-- C5: for every page count and text, the metric map carries
`round_number_ratio` as computed by `roundNumberRatio`, and that value lies in
`[0, 1]`: the round-token count never exceeds the token count and the
denominator is floored at 1. -/
theorem C5_round_number_ratio_unit_interval :
    ∀ (pc : ℕ) (t : String),
      ("round_number_ratio", MVal.num (roundNumberRatio t.data)) ∈
        calculateMetrics pc t ∧
      0 ≤ roundNumberRatio t.data ∧ roundNumberRatio t.data ≤ 1 := by
  intro pc t
  exact ⟨by simp [calculateMetrics], roundNumberRatio_nonneg t.data,
    roundNumberRatio_le_one t.data⟩

/-- C6: for every per-page text sequence (including the empty one), the
per-page mapping of `_calculate_we_stats` has exactly one entry per page,
keyed by the integers 1..N in page order. -/
theorem C6_perpage_keys_one_to_n :
    ∀ (pages : List String) (t : String),
      ((weStatsOf pages t).perPage).length = pages.length ∧
      ((weStatsOf pages t).perPage).map Prod.fst =
        List.range' 1 pages.length := by
  intro pages t
  exact ⟨wePerPageAux_length 1 pages, wePerPageAux_map_fst 1 pages⟩

/-- C7: citation_count is ≥ 0, and appending any suffix to the text preserves
every matched citation substring (multiset of matches of each of the eight
patterns), so the deduplicated citation count is monotonically non-decreasing
under adding text on the right. -/
theorem C7_citation_count_monotone :
    ∀ (t s : String),
      0 ≤ citationCount t.data ∧
      (∀ x, x ∈ citationsList t.data → x ∈ citationsList (t ++ s).data) ∧
      citationCount t.data ≤ citationCount (t ++ s).data := by
  intro t s
  refine ⟨Nat.zero_le _, ?_, ?_⟩
  · intro x hx
    rw [String.data_append]
    exact citationsList_mono hx
  · rw [String.data_append]
    exact citationCount_mono t.data s.data

/-- C7 (witness): the monotone-membership part applied to the concrete text
`"see [1]"`, its match `[1]`, and the suffix `" and [2]"`. -/
theorem C7_citation_count_monotone_witness :
    "[1]".data ∈ citationsList "see [1]".data ∧
    "[1]".data ∈ citationsList ("see [1]" ++ " and [2]").data :=
  ⟨by decide,
    (C7_citation_count_monotone "see [1]" " and [2]").2.1 "[1]".data (by decide)⟩

/-- C8 (counterexample): the code's first alternative `\(i+\)` accepts any
positive run of `i`s, so `(iiii)` — which is none of `(i)`, `(ii)`, `(iii)`,
`(<single letter>)`, `(<single digit>)` — is still counted:
`contribution_list_items` is 1 on `"(iiii)"` while the claim's enumeration
(`claimEnumCount`, modelled from the claim's words) counts 0. -/
theorem C8_counterexample :
    ("contribution_list_items",
        MVal.num (contributionListItems (lowerL "(iiii)".data))) ∈
      calculateMetrics 0 "(iiii)" ∧
    contributionListItems (lowerL "(iiii)".data) = 1 ∧
    claimEnumCount (lowerL "(iiii)".data) = 0 := by
  refine ⟨by simp [calculateMetrics], by decide, by decide⟩

/-- C8 (amended): for every text, `contribution_list_items` equals the number
of left-to-right non-overlapping occurrences, in the case-folded text, of `(`
followed by one or more `i`s, or a single lowercase letter, or a single digit,
followed by `)` (`specEnumCount`, stated in the amended claim's own words). -/
theorem C8_contribution_items_characterised :
    ∀ (pc : ℕ) (t : String),
      ("contribution_list_items",
        MVal.num (specEnumCount (lowerL t.data))) ∈ calculateMetrics pc t := by
  intro pc t
  rw [← contributionListItems_eq_specEnumCount (lowerL t.data)]
  simp [calculateMetrics]

/-- C9: for every page count and text, the metric map carries
`hedging_per_100` as computed by `hedgingPer100`, and that value lies in
`[0, 100]`: hedging tokens are a sub-count of all word tokens, and the ratio
is 0 when there are no words. -/
theorem C9_hedging_per_100_bounds :
    ∀ (pc : ℕ) (t : String),
      ("hedging_per_100", MVal.num (hedgingPer100 (lowerL t.data))) ∈
        calculateMetrics pc t ∧
      0 ≤ hedgingPer100 (lowerL t.data) ∧
      hedgingPer100 (lowerL t.data) ≤ 100 := by
  intro pc t
  exact ⟨by simp [calculateMetrics], hedgingPer100_nonneg (lowerL t.data),
    hedgingPer100_le_100 (lowerL t.data)⟩

/-- C10 (counterexample): Python's `max_pages or total_pages` treats a
requested limit of 0 as "no limit", so for a one-page document analysed with
`max_pages = 0` the extracted page count (and the `page_count` metric, and the
number of per-page entries) is 1, not `min 0 1 = 0` as "the minimum of the
requested page limit and the document's total pages" would give. -/
theorem C10_counterexample :
    ("page_count", MVal.num ((extractText ["a"] (some 0)).2.2 : ℕ)) ∈
      (analyzePaper ["a"] (some 0)).1 ∧
    (extractText ["a"] (some 0)).2.2 = 1 ∧
    ((analyzePaper ["a"] (some 0)).2.perPage).length = 1 ∧
    min 0 (["a"] : List String).length = 0 := by
  refine ⟨?_, by decide, by decide, by decide⟩
  simp [analyzePaper, calculateMetrics]

/-- C10 (amended): in every single analysis run, the `page_count` metric and
the number of per-page self-reference entries both equal the number of
extracted page texts, which is `min req total` where the requested limit
`req` is the total page count when `max_pages` is `None` or `0` and the given
limit otherwise. -/
theorem C10_page_count_invariant :
    ∀ (docPages : List String) (mp : Option ℕ),
      ("page_count", MVal.num ((extractText docPages mp).2.2 : ℕ)) ∈
        (analyzePaper docPages mp).1 ∧
      ((analyzePaper docPages mp).2.perPage).length =
        (extractText docPages mp).2.2 ∧
      (extractText docPages mp).2.2 =
        min (match mp with
             | none => docPages.length
             | some m => if m = 0 then docPages.length else m)
          docPages.length := by
  intro docPages mp
  refine ⟨?_, ?_, rfl⟩
  · simp [analyzePaper, calculateMetrics]
  · simp only [analyzePaper, extractText, weStatsOf]
    rw [wePerPageAux_length, List.length_take]
    exact Nat.min_eq_left (Nat.min_le_right _ _)
